import Mathlib

set_option linter.unusedSectionVars false

/-!
Verification of the best-first-search library: a shallow embedding of
`best_first_search/heap.py` and `best_first_search/search.py` and proofs
about the embedded operations.

Modelling conventions:
* Python iterators are modelled by explicit cursor values together with a
  `next` function that returns the optional produced pair, the advanced
  cursor, and the updated shared state (`next` on a generator may read and
  write shared state; the search driver threads its memo dictionary this
  way).  `StopIteration` is the `none` result.
* `heapq` keeps the entries of `LazyHeapSingleThread.heap` in a binary-heap
  array whose pops return the lexicographically least tuple
  `(cost, index, item, iterator)`.  In every reachable state the `(cost,
  index)` prefixes are pairwise distinct, so the least tuple is unique and
  a multiset-with-least-extraction view is observationally exact; the
  embedding stores the entries in a plain list and extracts the entry with
  the least `(cost, index)` key.
* The `origin` field of an entry and the `pushes` counter are ghost data:
  they record the Python object identity of the iterator an entry
  continues.  No executable behaviour depends on them; they only let the
  theorems speak about "one entry per pushed sequence".
-/

namespace BFS

/-- Entry of the lazy heap: the Python tuple `(cost, index, item,
sorted_iterator)` that `heappush` places on `self.heap`, plus the ghost
`origin` tag naming the pushed iterator object it continues. -/
structure Ent (C A ι : Type) where
  cost : C
  idx : Nat
  item : A
  rest : ι
  origin : Nat
deriving DecidableEq

/-- Sort key realised by `heapq`'s tuple comparison: with pairwise distinct
indices the comparison is decided on the `(cost, index)` prefix. -/
def Ent.key [LinearOrder C] (e : Ent C A ι) : C ×ₗ Nat := toLex (e.cost, e.idx)

/-- `heappop` on the multiset view: remove the entry with the least
`(cost, index)` key.  Returns `none` exactly when the heap is empty. -/
def popMin [LinearOrder C] [DecidableEq A] [DecidableEq ι] (l : List (Ent C A ι)) :
    Option (Ent C A ι × List (Ent C A ι)) :=
  match l.argmin Ent.key with
  | none => none
  | some e => some (e, l.erase e)

/-- One step of a Python iterator of `(Cost, value)` pairs: `next` returns
the optional produced pair, the advanced cursor and the updated shared
state of type `σ`. -/
structure NextFn (σ ι C A : Type) where
  next : σ → ι → Option (C × A) × ι × σ

/-- State of `LazyHeapSingleThread`: the entry list and the running
insertion index (`self.index`).  `pushes` is the ghost counter of `push`
calls, used to name iterator objects. -/
structure LazyHeapSingleThread (C A ι : Type) where
  heap : List (Ent C A ι) := []
  index : Nat := 0
  pushes : Nat := 0
deriving DecidableEq

variable {C A ι σ : Type}

/-- `LazyHeapSingleThread.push`: pull one pair from the iterator; on
`StopIteration` discard the iterator silently, otherwise insert
`(cost, self.index, item, sorted_iterator)` and bump the index. -/
def LazyHeapSingleThread.push [LinearOrder C] (F : NextFn σ ι C A) (st : σ)
    (s : LazyHeapSingleThread C A ι) (it : ι) :
    LazyHeapSingleThread C A ι × σ :=
  match F.next st it with
  | (none, _, st') => ({ s with pushes := s.pushes + 1 }, st')
  | (some (c, a), it', st') =>
      ({ heap := s.heap ++ [⟨c, s.index, a, it', s.pushes⟩],
         index := s.index + 1, pushes := s.pushes + 1 }, st')

/-- `LazyHeapSingleThread.pop`: if the heap is nonempty, `heappop` the
least entry, pull the next pair from its iterator and, if present,
re-insert it with a fresh index; return the popped `(cost, item)`.
Returns `none` on an empty heap.  (The source's `while self.heap:` body
returns unconditionally, so the loop runs at most once.) -/
def LazyHeapSingleThread.pop [LinearOrder C] [DecidableEq A] [DecidableEq ι]
    (F : NextFn σ ι C A) (st : σ) (s : LazyHeapSingleThread C A ι) :
    Option (C × A) × LazyHeapSingleThread C A ι × σ :=
  match popMin s.heap with
  | none => (none, s, st)
  | some (e, rest) =>
      match F.next st e.rest with
      | (none, _, st') => (some (e.cost, e.item), { s with heap := rest }, st')
      | (some (c', a'), it', st') =>
          (some (e.cost, e.item),
           { heap := rest ++ [⟨c', s.index, a', it', e.origin⟩],
             index := s.index + 1, pushes := s.pushes }, st')

/-- External operations on a lazy heap. -/
inductive HeapOp (ι : Type) where
  | push (it : ι)
  | pop
deriving DecidableEq

/-- Run a sequence of operations, collecting the result of every `pop`. -/
def runOps [LinearOrder C] [DecidableEq A] [DecidableEq ι] (F : NextFn σ ι C A) :
    List (HeapOp ι) → LazyHeapSingleThread C A ι × σ →
    (LazyHeapSingleThread C A ι × σ) × List (Option (C × A))
  | [], p => (p, [])
  | .push it :: ops, (s, st) => runOps F ops (LazyHeapSingleThread.push F st s it)
  | .pop :: ops, (s, st) =>
      let r := LazyHeapSingleThread.pop F st s
      let rec_ := runOps F ops (r.2.1, r.2.2)
      (rec_.1, r.1 :: rec_.2)

/-- The iterator behaviour used when plain materialised sorted sequences
are pushed (claims about the heap in isolation): the cursor is the list of
pairs not yet produced, and `next` has no shared state. -/
def listNext : NextFn Unit (List (C × A)) C A :=
  ⟨fun _ it =>
    match it with
    | [] => (none, [], ())
    | x :: xs => (some x, xs, ())⟩

/-- Initial empty heap. -/
def emptyHeap : LazyHeapSingleThread C A ι := {}

end BFS

namespace BFS

variable {C A ι σ : Type} [LinearOrder C] [DecidableEq A] [DecidableEq ι]

theorem popMin_none {l : List (Ent C A ι)} : popMin l = none ↔ l = [] := by
  constructor
  · intro h
    unfold popMin at h
    cases he : l.argmin Ent.key with
    | none => exact List.argmin_eq_none.mp he
    | some e => rw [he] at h; simp at h
  · intro h; subst h; rfl

theorem popMin_some {l : List (Ent C A ι)} {e : Ent C A ι} {r : List (Ent C A ι)}
    (h : popMin l = some (e, r)) :
    e ∈ l ∧ r = l.erase e ∧ ∀ x ∈ l, e.key ≤ x.key := by
  unfold popMin at h
  cases he : l.argmin Ent.key with
  | none => rw [he] at h; simp at h
  | some m =>
      rw [he] at h
      simp only [Option.some.injEq, Prod.mk.injEq] at h
      obtain ⟨rfl, rfl⟩ := h
      refine ⟨List.argmin_mem he, rfl, fun x hx => ?_⟩
      exact List.le_of_mem_argmin hx (Option.mem_def.mpr he)

theorem popMin_perm {l : List (Ent C A ι)} {e : Ent C A ι} {r : List (Ent C A ι)}
    (h : popMin l = some (e, r)) : l.Perm (e :: r) := by
  obtain ⟨hmem, rfl, -⟩ := popMin_some h
  exact List.perm_cons_erase hmem

theorem Ent.cost_le_of_key_le {e f : Ent C A ι} (h : e.key ≤ f.key) : e.cost ≤ f.cost := by
  rcases (Prod.Lex.le_iff (e.cost, e.idx) (f.cost, f.idx)).mp h with h1 | ⟨h1, -⟩
  · exact le_of_lt h1
  · exact le_of_eq h1

theorem Ent.lt_of_key_le_of_idx_ne {e f : Ent C A ι} (h : e.key ≤ f.key)
    (hne : e.idx ≠ f.idx) :
    e.cost < f.cost ∨ (e.cost = f.cost ∧ e.idx < f.idx) := by
  rcases (Prod.Lex.le_iff (e.cost, e.idx) (f.cost, f.idx)).mp h with h1 | ⟨h1, h2⟩
  · exact .inl h1
  · exact .inr ⟨h1, lt_of_le_of_ne h2 hne⟩

/-- Lower bound on a cost, when present. -/
def OptLe (lb : Option C) (c : C) : Prop := ∀ b, lb = some b → b ≤ c

theorem OptLe.none {c : C} : OptLe none c := fun _ h => by cases h

theorem OptLe.some {b c : C} (h : b ≤ c) : OptLe (some b) c := fun _ hb => by
  cases hb; exact h

/-- Bookkeeping invariant of every reachable heap state: indices are below
the running counter and pairwise distinct (fresh indices are never reused),
and likewise origins (ghost iterator identities) are below the push counter
and pairwise distinct — the heap holds at most one live entry per pushed
iterator. -/
structure IdxInv (s : LazyHeapSingleThread C A ι) : Prop where
  idx_lt : ∀ e ∈ s.heap, e.idx < s.index
  idx_distinct : s.heap.Pairwise (fun e f => e.idx ≠ f.idx)
  origin_lt : ∀ e ∈ s.heap, e.origin < s.pushes
  origin_distinct : s.heap.Pairwise (fun e f => e.origin ≠ f.origin)


theorem idxInv_empty : IdxInv (emptyHeap : LazyHeapSingleThread C A ι) := by
  refine ⟨?_, ?_, ?_, ?_⟩
  · intro e he; cases he
  · exact .nil
  · intro e he; cases he
  · exact .nil

theorem IdxInv.push {F : NextFn σ ι C A} {st : σ} {s : LazyHeapSingleThread C A ι}
    {it : ι} (h : IdxInv s) : IdxInv (LazyHeapSingleThread.push F st s it).1 := by
  rcases hn : F.next st it with ⟨o, it', st'⟩
  cases o with
  | none =>
      simp only [LazyHeapSingleThread.push, hn]
      exact ⟨h.idx_lt, h.idx_distinct, fun e he => Nat.lt_succ_of_lt (h.origin_lt e he),
        h.origin_distinct⟩
  | some p =>
      obtain ⟨c, a⟩ := p
      simp only [LazyHeapSingleThread.push, hn]
      refine ⟨?_, ?_, ?_, ?_⟩
      · intro e he
        rcases List.mem_append.mp he with he | he
        · exact Nat.lt_succ_of_lt (h.idx_lt e he)
        · simp only [List.mem_singleton] at he; subst he; exact Nat.lt_succ_self _
      · refine List.pairwise_append.mpr ⟨h.idx_distinct, List.pairwise_singleton _ _, ?_⟩
        intro x hx y hy
        simp only [List.mem_singleton] at hy; subst hy
        exact Nat.ne_of_lt (h.idx_lt x hx)
      · intro e he
        rcases List.mem_append.mp he with he | he
        · exact Nat.lt_succ_of_lt (h.origin_lt e he)
        · simp only [List.mem_singleton] at he; subst he; exact Nat.lt_succ_self _
      · refine List.pairwise_append.mpr ⟨h.origin_distinct, List.pairwise_singleton _ _, ?_⟩
        intro x hx y hy
        simp only [List.mem_singleton] at hy; subst hy
        exact Nat.ne_of_lt (h.origin_lt x hx)

theorem IdxInv.pop {F : NextFn σ ι C A} {st : σ} {s : LazyHeapSingleThread C A ι}
    (h : IdxInv s) : IdxInv (LazyHeapSingleThread.pop F st s).2.1 := by
  rcases hp : popMin s.heap with - | ⟨e, r⟩
  · simp only [LazyHeapSingleThread.pop, hp]; exact h
  · have hperm := popMin_perm hp
    have hmem : ∀ x ∈ r, x ∈ s.heap := fun x hx =>
      hperm.symm.subset (List.mem_cons_of_mem _ hx)
    have hemem : e ∈ s.heap := hperm.symm.subset (List.mem_cons_self _ _)
    have hidx : (e :: r).Pairwise (fun e f => e.idx ≠ f.idx) :=
      (hperm.pairwise_iff (fun hab => Ne.symm hab)).mp h.idx_distinct
    have horig : (e :: r).Pairwise (fun e f => e.origin ≠ f.origin) :=
      (hperm.pairwise_iff (fun hab => Ne.symm hab)).mp h.origin_distinct
    rcases hn : F.next st e.rest with ⟨o, it', st'⟩
    cases o with
    | none =>
        simp only [LazyHeapSingleThread.pop, hp, hn]
        exact ⟨fun x hx => h.idx_lt x (hmem x hx), (List.pairwise_cons.mp hidx).2,
          fun x hx => h.origin_lt x (hmem x hx), (List.pairwise_cons.mp horig).2⟩
    | some p =>
        obtain ⟨c', a'⟩ := p
        simp only [LazyHeapSingleThread.pop, hp, hn]
        refine ⟨?_, ?_, ?_, ?_⟩
        · intro x hx
          rcases List.mem_append.mp hx with hx | hx
          · exact Nat.lt_succ_of_lt (h.idx_lt x (hmem x hx))
          · simp only [List.mem_singleton] at hx; subst hx; exact Nat.lt_succ_self _
        · refine List.pairwise_append.mpr
            ⟨(List.pairwise_cons.mp hidx).2, List.pairwise_singleton _ _, ?_⟩
          intro x hx y hy
          simp only [List.mem_singleton] at hy; subst hy
          exact Nat.ne_of_lt (h.idx_lt x (hmem x hx))
        · intro x hx
          rcases List.mem_append.mp hx with hx | hx
          · exact h.origin_lt x (hmem x hx)
          · simp only [List.mem_singleton] at hx; subst hx; exact h.origin_lt e hemem
        · refine List.pairwise_append.mpr
            ⟨(List.pairwise_cons.mp horig).2, List.pairwise_singleton _ _, ?_⟩
          intro x hx y hy
          simp only [List.mem_singleton] at hy; subst hy
          exact Ne.symm ((List.pairwise_cons.mp horig).1 x hx)

theorem runOps_idxInv (F : NextFn σ ι C A) (ops : List (HeapOp ι)) :
    ∀ (s : LazyHeapSingleThread C A ι) (st : σ), IdxInv s →
      IdxInv (runOps F ops (s, st)).1.1 := by
  induction ops with
  | nil => exact fun s st h => h
  | cons op ops ih =>
    intro s st h
    cases op with
    | push it =>
        simp only [runOps]
        exact ih _ _ (IdxInv.push h)
    | pop =>
        simp only [runOps]
        exact ih _ _ (IdxInv.pop h)

end BFS

namespace BFS

variable {C A ι σ : Type} [LinearOrder C] [DecidableEq A] [DecidableEq ι]

/-- Cost invariant of a heap state, parameterised by a per-iterator
invariant `IOK c it` ("the iterator `it` will only ever produce costs
at least `c`, and stays that way"): every entry satisfies its iterator
invariant at its own cost, and all entry costs dominate the optional
lower bound `lb` (the cost of the most recently popped entry). -/
def CostInv (IOK : C → ι → Prop) (lb : Option C) (s : LazyHeapSingleThread C A ι) : Prop :=
  ∀ e ∈ s.heap, IOK e.cost e.rest ∧ OptLe lb e.cost

/-- The `next` function respects the iterator invariant: producing
`(c', a)` from an iterator with invariant at `c` gives `c ≤ c'` and the
advanced iterator satisfies the invariant at `c'`, whatever the shared
state is. -/
def NextPres (F : NextFn σ ι C A) (IOK : C → ι → Prop) : Prop :=
  ∀ (st : σ) (c : C) (it : ι), IOK c it →
    ∀ c' a it' st', F.next st it = (some (c', a), it', st') → c ≤ c' ∧ IOK c' it'

theorem CostInv.weaken {IOK : C → ι → Prop} {lb : Option C}
    {s : LazyHeapSingleThread C A ι} (h : CostInv IOK lb s) :
    CostInv IOK none s := fun e he => ⟨(h e he).1, OptLe.none⟩

/-- Shape of `pop` on an empty heap. -/
theorem pop_eq_empty {s : LazyHeapSingleThread C A ι} (hp : popMin s.heap = none)
    (F : NextFn σ ι C A) (st : σ) :
    LazyHeapSingleThread.pop F st s = (none, s, st) := by
  simp only [LazyHeapSingleThread.pop, hp]

/-- Shape of `pop` when the popped entry's iterator is exhausted. -/
theorem pop_eq_exhausted {s : LazyHeapSingleThread C A ι} {e : Ent C A ι}
    {r : List (Ent C A ι)} (hp : popMin s.heap = some (e, r))
    {F : NextFn σ ι C A} {st : σ} {it'' : ι} {st' : σ}
    (hn : F.next st e.rest = (none, it'', st')) :
    LazyHeapSingleThread.pop F st s = (some (e.cost, e.item), { s with heap := r }, st') := by
  simp only [LazyHeapSingleThread.pop, hp, hn]

/-- Shape of `pop` when the popped entry's iterator produces another pair. -/
theorem pop_eq_advance {s : LazyHeapSingleThread C A ι} {e : Ent C A ι}
    {r : List (Ent C A ι)} (hp : popMin s.heap = some (e, r))
    {F : NextFn σ ι C A} {st : σ} {c' : C} {a' : A} {it' : ι} {st' : σ}
    (hn : F.next st e.rest = (some (c', a'), it', st')) :
    LazyHeapSingleThread.pop F st s =
      (some (e.cost, e.item),
       { heap := r ++ [⟨c', s.index, a', it', e.origin⟩],
         index := s.index + 1, pushes := s.pushes }, st') := by
  simp only [LazyHeapSingleThread.pop, hp, hn]

/-- Shape of `push` when the pushed iterator is already exhausted. -/
theorem push_eq_empty {F : NextFn σ ι C A} {st : σ} {it it'' : ι} {st' : σ}
    (hn : F.next st it = (none, it'', st')) (s : LazyHeapSingleThread C A ι) :
    LazyHeapSingleThread.push F st s it = ({ s with pushes := s.pushes + 1 }, st') := by
  simp only [LazyHeapSingleThread.push, hn]

/-- Shape of `push` when the pushed iterator produces a first pair. -/
theorem push_eq_some {F : NextFn σ ι C A} {st : σ} {it : ι} {c : C} {a : A}
    {it' : ι} {st' : σ} (hn : F.next st it = (some (c, a), it', st'))
    (s : LazyHeapSingleThread C A ι) :
    LazyHeapSingleThread.push F st s it =
      ({ heap := s.heap ++ [⟨c, s.index, a, it', s.pushes⟩],
         index := s.index + 1, pushes := s.pushes + 1 }, st') := by
  simp only [LazyHeapSingleThread.push, hn]

theorem runOps_nil (F : NextFn σ ι C A) (p : LazyHeapSingleThread C A ι × σ) :
    runOps F [] p = (p, []) := rfl

theorem runOps_push_cons (F : NextFn σ ι C A) (ops : List (HeapOp ι)) (it : ι)
    (s : LazyHeapSingleThread C A ι) (st : σ) :
    runOps F (.push it :: ops) (s, st) = runOps F ops (LazyHeapSingleThread.push F st s it) := rfl

theorem runOps_pop_cons (F : NextFn σ ι C A) (ops : List (HeapOp ι))
    (s : LazyHeapSingleThread C A ι) (st : σ) :
    runOps F (.pop :: ops) (s, st) =
      ((runOps F ops ((LazyHeapSingleThread.pop F st s).2.1,
          (LazyHeapSingleThread.pop F st s).2.2)).1,
        (LazyHeapSingleThread.pop F st s).1 ::
          (runOps F ops ((LazyHeapSingleThread.pop F st s).2.1,
            (LazyHeapSingleThread.pop F st s).2.2)).2) := rfl

/-- Behaviour of `pop` under the cost invariant: a `none` result means the
heap was and stays empty; a `some (c, a)` result dominates the lower bound
and re-establishes the invariant with the new lower bound `c`. -/
theorem pop_costInv {F : NextFn σ ι C A} {IOK : C → ι → Prop}
    (hF : NextPres F IOK) {lb : Option C} {st : σ} {s : LazyHeapSingleThread C A ι}
    (hs : CostInv IOK lb s) :
    ((LazyHeapSingleThread.pop F st s).1 = none →
      (LazyHeapSingleThread.pop F st s).2.1 = s ∧ s.heap = []) ∧
    (∀ c a, (LazyHeapSingleThread.pop F st s).1 = some (c, a) →
      OptLe lb c ∧ CostInv IOK (some c) (LazyHeapSingleThread.pop F st s).2.1) := by
  rcases hp : popMin s.heap with - | ⟨e, r⟩
  · rw [pop_eq_empty hp]
    exact ⟨fun _ => ⟨rfl, popMin_none.mp hp⟩, fun c a h => by cases h⟩
  · obtain ⟨hemem, -, hkey⟩ := popMin_some hp
    have hrsub : ∀ x ∈ r, x ∈ s.heap := fun x hx =>
      (popMin_perm hp).symm.subset (List.mem_cons_of_mem _ hx)
    have hecost : ∀ x ∈ r, e.cost ≤ x.cost := fun x hx =>
      Ent.cost_le_of_key_le (hkey x (hrsub x hx))
    rcases hn : F.next st e.rest with ⟨o, it', st'⟩
    cases o with
    | none =>
        rw [pop_eq_exhausted hp hn]
        refine ⟨?_, ?_⟩
        · intro h; cases h
        intro c a h
        simp only [Option.some.injEq, Prod.mk.injEq] at h
        obtain ⟨rfl, rfl⟩ := h
        refine ⟨(hs e hemem).2, ?_⟩
        intro x hx
        have hx' : x ∈ r := hx
        exact ⟨(hs x (hrsub x hx')).1, OptLe.some (hecost x hx')⟩
    | some p =>
        obtain ⟨c', a'⟩ := p
        rw [pop_eq_advance hp hn]
        refine ⟨?_, ?_⟩
        · intro h; cases h
        intro c a h
        simp only [Option.some.injEq, Prod.mk.injEq] at h
        obtain ⟨rfl, rfl⟩ := h
        have hadv := hF st e.cost e.rest (hs e hemem).1 c' a' it' st' hn
        refine ⟨(hs e hemem).2, ?_⟩
        intro x hx
        have hx' : x ∈ r ++ [(⟨c', s.index, a', it', e.origin⟩ : Ent C A ι)] := hx
        rcases List.mem_append.mp hx' with hx'' | hx''
        · exact ⟨(hs x (hrsub x hx'')).1, OptLe.some (hecost x hx'')⟩
        · simp only [List.mem_singleton] at hx''; subst hx''
          exact ⟨hadv.2, OptLe.some hadv.1⟩

/-- Behaviour of `push` under the cost invariant, given that whatever the
pushed iterator first produces dominates the bound and satisfies the
iterator invariant. -/
theorem push_costInv {F : NextFn σ ι C A} {IOK : C → ι → Prop} {lb : Option C}
    {st : σ} {s : LazyHeapSingleThread C A ι} {it : ι}
    (hit : ∀ c' a it' st', F.next st it = (some (c', a), it', st') →
      OptLe lb c' ∧ IOK c' it')
    (hs : CostInv IOK lb s) :
    CostInv IOK lb (LazyHeapSingleThread.push F st s it).1 := by
  rcases hn : F.next st it with ⟨o, it', st'⟩
  cases o with
  | none => rw [push_eq_empty hn]; exact hs
  | some p =>
      obtain ⟨c, a⟩ := p
      rw [push_eq_some hn]
      intro x hx
      have hx' : x ∈ s.heap ++ [(⟨c, s.index, a, it', s.pushes⟩ : Ent C A ι)] := hx
      rcases List.mem_append.mp hx' with hx'' | hx''
      · exact hs x hx''
      · simp only [List.mem_singleton] at hx''; subst hx''
        have := hit c a it' st' hn
        exact ⟨this.2, this.1⟩

/-- Costs of the `some` results in a list of pop outputs, in order. -/
def someCosts : List (Option (C × A)) → List C
  | [] => []
  | none :: l => someCosts l
  | some (c, _) :: l => c :: someCosts l

/-- Popping repeatedly from a heap satisfying the cost invariant yields
values that dominate the bound, in non-decreasing cost order. -/
theorem popN_chain {F : NextFn σ ι C A} {IOK : C → ι → Prop} (hF : NextPres F IOK) :
    ∀ (n : Nat) (s : LazyHeapSingleThread C A ι) (st : σ) (lb : Option C),
      CostInv IOK lb s →
      (∀ b ∈ someCosts (runOps F (List.replicate n .pop) (s, st)).2, OptLe lb b) ∧
      List.Chain' (· ≤ ·) (someCosts (runOps F (List.replicate n .pop) (s, st)).2) := by
  intro n
  induction n with
  | zero =>
      intro s st lb _
      simp [runOps, someCosts]
  | succ n ih =>
    intro s st lb hs
    rw [List.replicate_succ, runOps_pop_cons]
    rcases hr : (LazyHeapSingleThread.pop F st s).1 with - | ⟨c, a⟩
    · have h1 := ((pop_costInv hF hs).1 hr).1
      have hrec := ih (LazyHeapSingleThread.pop F st s).2.1 (LazyHeapSingleThread.pop F st s).2.2
        lb (by rw [h1]; exact hs)
      dsimp only
      simpa only [someCosts] using hrec
    · have h2 := (pop_costInv hF hs).2 c a hr
      have hrec := ih (LazyHeapSingleThread.pop F st s).2.1 (LazyHeapSingleThread.pop F st s).2.2
        (some c) h2.2
      dsimp only
      simp only [someCosts]
      refine ⟨?_, ?_⟩
      · intro b hb
        rcases List.mem_cons.mp hb with rfl | hb
        · exact h2.1
        · exact fun x hx => le_trans (h2.1 x hx) (hrec.1 b hb c rfl)
      · refine List.chain'_cons'.mpr ⟨?_, hrec.2⟩
        intro b hb
        have hbmem : b ∈ someCosts (runOps F (List.replicate n .pop)
            ((LazyHeapSingleThread.pop F st s).2.1,
             (LazyHeapSingleThread.pop F st s).2.2)).2 :=
          List.mem_of_mem_head? hb
        exact hrec.1 b hbmem c rfl

end BFS

namespace BFS

variable {C A ι σ : Type} [LinearOrder C] [DecidableEq A] [DecidableEq ι]

theorem runOps_append (F : NextFn σ ι C A) (l1 l2 : List (HeapOp ι)) :
    ∀ p, runOps F (l1 ++ l2) p =
      ((runOps F l2 (runOps F l1 p).1).1,
       (runOps F l1 p).2 ++ (runOps F l2 (runOps F l1 p).1).2) := by
  induction l1 with
  | nil => intro p; simp [runOps_nil]
  | cons op l1 ih =>
      intro p
      obtain ⟨s, st⟩ := p
      cases op with
      | push it =>
          rw [List.cons_append, runOps_push_cons, runOps_push_cons, ih]
      | pop =>
          rw [List.cons_append, runOps_pop_cons, runOps_pop_cons, ih]
          simp

theorem pushes_no_output (F : NextFn σ ι C A) (its : List ι) :
    ∀ p, (runOps F (its.map .push) p).2 = [] := by
  induction its with
  | nil => intro p; rfl
  | cons it its ih =>
      intro p
      obtain ⟨s, st⟩ := p
      rw [List.map_cons, runOps_push_cons]
      exact ih _

/-- Iterator invariant for materialised sorted sequences: every remaining
pair costs at least `c` and the remaining pairs are mutually ordered. -/
def listIterOK (c : C) (it : List (C × A)) : Prop :=
  (∀ p ∈ it, c ≤ p.1) ∧ it.Pairwise (fun p q => p.1 ≤ q.1)

theorem listNext_first {it : List (C × A)}
    (hsort : it.Pairwise (fun p q => p.1 ≤ q.1))
    {st : Unit} {c' : C} {a : A} {it' : List (C × A)} {st' : Unit}
    (hn : (listNext (C := C) (A := A)).next st it = (some (c', a), it', st')) :
    listIterOK c' it' := by
  cases it with
  | nil => simp [listNext] at hn
  | cons x xs =>
      simp only [listNext, Prod.mk.injEq, Option.some.injEq] at hn
      obtain ⟨h1, h2, -⟩ := hn
      subst h1; subst h2
      exact ⟨fun p hp => (List.pairwise_cons.mp hsort).1 p hp,
        (List.pairwise_cons.mp hsort).2⟩

theorem listNext_pres : NextPres (listNext (C := C) (A := A)) listIterOK := by
  intro st c it hit c' a it' st' hn
  cases it with
  | nil => simp [listNext] at hn
  | cons x xs =>
      have hle : c ≤ x.1 := hit.1 x (List.mem_cons_self _ _)
      simp only [listNext, Prod.mk.injEq, Option.some.injEq] at hn
      obtain ⟨h1, h2, -⟩ := hn
      subst h1; subst h2
      exact ⟨hle, listNext_first hit.2
        (rfl : (listNext (C := C) (A := A)).next st ((c', a) :: xs) =
          (some (c', a), xs, ()))⟩

theorem pushes_costInv (its : List (List (C × A)))
    (hasc : ∀ it ∈ its, it.Pairwise (fun p q => p.1 ≤ q.1)) :
    ∀ (s : LazyHeapSingleThread C A (List (C × A))) (st : Unit),
      CostInv listIterOK none s →
      CostInv listIterOK none (runOps listNext (its.map .push) (s, st)).1.1 := by
  induction its with
  | nil => intro s st h; exact h
  | cons it its ih =>
      intro s st h
      rw [List.map_cons, runOps_push_cons]
      refine ih (fun x hx => hasc x (List.mem_cons_of_mem _ hx)) _ _ ?_
      refine push_costInv (fun c' a it' st' hn => ?_) h
      exact ⟨OptLe.none, listNext_first (hasc it (List.mem_cons_self _ _)) hn⟩

/-- Ascending (successively non-decreasing) cost pairs form a mutually
ordered list. -/
theorem pairwise_of_chain_fst {it : List (C × A)}
    (h : List.Chain' (fun p q : C × A => p.1 ≤ q.1) it) :
    it.Pairwise (fun p q => p.1 ≤ q.1) := by
  haveI : IsTrans (C × A) (fun p q => p.1 ≤ q.1) :=
    ⟨fun a b c hab hbc => le_trans hab hbc⟩
  exact List.chain'_iff_pairwise.mp h

/-- C1: for every finite collection of sequences, each individually
ascending in cost, pushed into the sequential lazy heap and then popped
repeatedly, (i) the costs returned by successive `pop` calls are
non-decreasing; moreover in every state reachable by any operation
sequence, (ii) the entry `heappop` removes is strictly least by
`(cost, index)` among the present entries — among equal costs the one
with the least insertion index, i.e. FIFO by insertion order — and
(iii) the ghost origins of the entries are pairwise distinct: the heap
holds at most one live entry per previously pushed sequence. -/
theorem claim_C1 (its : List (List (C × A)))
    (hasc : ∀ it ∈ its, List.Chain' (fun p q : C × A => p.1 ≤ q.1) it)
    (n : Nat) (ops : List (HeapOp (List (C × A)))) :
    List.Chain' (· ≤ ·) (someCosts
      (runOps (listNext (C := C) (A := A)) (its.map .push ++ List.replicate n .pop)
        (emptyHeap, ())).2) ∧
    (∀ e r, popMin (runOps (listNext (C := C) (A := A)) ops (emptyHeap, ())).1.1.heap
        = some (e, r) →
      ∀ x ∈ r, e.cost < x.cost ∨ (e.cost = x.cost ∧ e.idx < x.idx)) ∧
    (runOps (listNext (C := C) (A := A)) ops (emptyHeap, ())).1.1.heap.Pairwise
      (fun e f => e.origin ≠ f.origin) := by
  refine ⟨?_, ?_, ?_⟩
  · have h0 : CostInv listIterOK none (emptyHeap : LazyHeapSingleThread C A (List (C × A))) :=
      fun e he => absurd he (List.not_mem_nil e)
    have hpush := pushes_costInv its (fun it hit => pairwise_of_chain_fst (hasc it hit))
      emptyHeap () h0
    rw [runOps_append, pushes_no_output]
    have := (popN_chain listNext_pres n
      (runOps listNext (its.map .push) (emptyHeap, ())).1.1
      (runOps listNext (its.map .push) (emptyHeap, ())).1.2 none hpush).2
    simpa using this
  · intro e r hp x hx
    have hinv := runOps_idxInv (listNext (C := C) (A := A)) ops emptyHeap () idxInv_empty
    obtain ⟨-, -, hkey⟩ := popMin_some hp
    have hperm := popMin_perm hp
    have hxmem : x ∈ (runOps (listNext (C := C) (A := A)) ops (emptyHeap, ())).1.1.heap :=
      hperm.symm.subset (List.mem_cons_of_mem _ hx)
    have hidx : (e :: r).Pairwise (fun e f => e.idx ≠ f.idx) :=
      (hperm.pairwise_iff (fun hab => Ne.symm hab)).mp hinv.idx_distinct
    exact Ent.lt_of_key_le_of_idx_ne (hkey x hxmem) ((List.pairwise_cons.mp hidx).1 x hx)
  · exact (runOps_idxInv (listNext (C := C) (A := A)) ops emptyHeap () idxInv_empty).origin_distinct

/-- Python's comparison of two heap tuples, observed on the
`(cost, index)` prefix: `some b` when the comparison is decided there,
`none` when both components tie and Python would go on to compare the
`item` components — which may raise `TypeError` for item types without
ordering. -/
def pyLtObs (e f : Ent C A ι) : Option Bool :=
  if e.cost < f.cost then some true
  else if f.cost < e.cost then some false
  else if e.idx < f.idx then some true
  else if f.idx < e.idx then some false
  else none

theorem pyLtObs_isSome_of_idx_ne {e f : Ent C A ι} (h : e.idx ≠ f.idx) :
    (pyLtObs e f).isSome := by
  unfold pyLtObs
  split_ifs with h1 h2 h3 h4
  · rfl
  · rfl
  · rfl
  · rfl
  · exact absurd (Nat.le_antisymm (Nat.not_lt.mp h4) (Nat.not_lt.mp h3)) h

/-- C10: in every reachable state of the sequential lazy heap, every
entry's insertion index is below the running counter (so fresh indices
are strictly increasing and never reused), the indices present are
pairwise distinct, and hence the tuple comparison between any two present
entries is decided on the `(cost, index)` prefix in both orientations:
`push` and `pop` never compare `item` (node) values, so nodes need not
support ordering. -/
theorem claim_C10 (F : NextFn σ ι C A) (st : σ) (ops : List (HeapOp ι)) :
    (∀ e ∈ (runOps F ops (emptyHeap, st)).1.1.heap,
        e.idx < (runOps F ops (emptyHeap, st)).1.1.index) ∧
    (runOps F ops (emptyHeap, st)).1.1.heap.Pairwise (fun e f => e.idx ≠ f.idx) ∧
    (runOps F ops (emptyHeap, st)).1.1.heap.Pairwise
      (fun e f => (pyLtObs e f).isSome ∧ (pyLtObs f e).isSome) := by
  have h := runOps_idxInv F ops emptyHeap st idxInv_empty
  refine ⟨h.idx_lt, h.idx_distinct, ?_⟩
  exact h.idx_distinct.imp
    (fun hne => ⟨pyLtObs_isSome_of_idx_ne hne, pyLtObs_isSome_of_idx_ne (Ne.symm hne)⟩)

end BFS

namespace BFS

/-- Search problem data handed to `best_first_search`: `producer` is
`get_sorted_neighbor_iterator` (neighbour pairs in ascending incremental
cost), `isSolution` is `is_solution`, `costAdd` is `cost_add`. -/
structure Problem (C N : Type) where
  producer : N → List (C × N)
  isSolution : N → Bool
  costAdd : C → C → C

/-- Iterator owned by the driver's heap: either the literal one-element
list iterator used to seed the frontier, or a running `_iterate`
generator with its accumulated cost, its path, and the not yet consumed
part of the neighbour list. -/
inductive SIter (C N : Type) where
  | lit (l : List (C × List N))
  | gen (cost : C) (nodes : List N) (rest : List (C × N))
deriving DecidableEq

/-- The memo dictionary `node2best_cost` (absent key = `none`). -/
def Memo (C N : Type) := N → Option C

/-- Fresh empty dictionary. -/
def Memo.empty {C N : Type} : Memo C N := fun _ => none

/-- `node2best_cost[n] = c`. -/
def Memo.insert {C N : Type} [DecidableEq N] (m : Memo C N) (n : N) (c : C) :
    Memo C N := fun x => if x = n then some c else m x

variable {C N : Type} [LinearOrder C] [DecidableEq N]

/-- One `next` on the `_iterate` generator body: walk the remaining
neighbour pairs; for each, `cost_total = cost_add(cost, _cost)`; when
memoisation is on and `node2best_cost` records a bound ≤ `cost_total`
for the node, skip the candidate and leave the memo unchanged; otherwise
record `cost_total` as the node's new best and emit
`(cost_total, nodes + [node])`. -/
def iterateGen (memoize : Bool) (P : Problem C N) (c : C) (nodes : List N) :
    Memo C N → List (C × N) → Option (C × List N) × List (C × N) × Memo C N
  | memo, [] => (none, [], memo)
  | memo, (ic, n) :: rest =>
      let cost_total := P.costAdd c ic
      if memoize then
        match memo n with
        | some best =>
            if best ≤ cost_total then iterateGen memoize P c nodes memo rest
            else (some (cost_total, nodes ++ [n]), rest, memo.insert n cost_total)
        | none => (some (cost_total, nodes ++ [n]), rest, memo.insert n cost_total)
      else (some (cost_total, nodes ++ [n]), rest, memo)

/-- `next` on a driver iterator, threading the shared memo. -/
def siterNext (memoize : Bool) (P : Problem C N) :
    NextFn (Memo C N) (SIter C N) C (List N) :=
  ⟨fun memo it =>
    match it with
    | .lit [] => (none, .lit [], memo)
    | .lit (x :: xs) => (some x, .lit xs, memo)
    | .gen c nodes rest =>
        match iterateGen memoize P c nodes memo rest with
        | (res, rest', memo') => (res, .gen c nodes rest', memo')⟩

/-- How a driver run ended within its fuel. -/
inductive BfsOutcome where
  | capped
  | exhausted
  | fuelOut
deriving DecidableEq

/-- Result of a driver run: the yielded `(cost, n_iter, nodes)` triples in
order, how the loop ended, the number of `heap.pop()` calls, the number of
pushed `_iterate` generators (expansions), and the final state. -/
structure BfsResult (C N : Type) where
  yields : List (C × Nat × List N)
  outcome : BfsOutcome
  pops : Nat
  expands : Nat
  finalHeap : LazyHeapSingleThread C (List N) (SIter C N)
  finalMemo : Memo C N

/-- Python's `n_max_iters is not None and n_iter >= n_max_iters`. -/
def capReached (nMax : Option Nat) (nIter : Nat) : Bool :=
  match nMax with
  | some k => decide (k ≤ nIter)
  | none => false

/-- The driver loop of `best_first_search`, one fuel unit per iteration of
the Python `for n_iter in itertools.count()` loop.  Faithful order of one
iteration: pop first, then the iteration-cap test, then the exhaustion
test; a solution path is yielded; a non-solution is expanded by pushing a
fresh `_iterate` generator over its neighbour list.  `heap.stop()` on the
sequential heap is `pass` and has no model effect.  Paths are nonempty by
construction, so `nodes.getLastD default` (modelling `nodes[-1]`) never
reads the default. -/
def bfsLoop [Inhabited N] (memoize : Bool) (P : Problem C N) (nMax : Option Nat) :
    Nat → Nat → LazyHeapSingleThread C (List N) (SIter C N) → Memo C N → BfsResult C N
  | 0, _, s, memo => ⟨[], .fuelOut, 0, 0, s, memo⟩
  | fuel + 1, nIter, s, memo =>
      let r := LazyHeapSingleThread.pop (siterNext memoize P) memo s
      if capReached nMax nIter then ⟨[], .capped, 1, 0, r.2.1, r.2.2⟩
      else
        match r.1 with
        | none => ⟨[], .exhausted, 1, 0, r.2.1, r.2.2⟩
        | some (cost, nodes) =>
            if P.isSolution (nodes.getLastD default) then
              let res := bfsLoop memoize P nMax fuel (nIter + 1) r.2.1 r.2.2
              ⟨(cost, nIter, nodes) :: res.yields, res.outcome, res.pops + 1,
                res.expands, res.finalHeap, res.finalMemo⟩
            else
              let p := LazyHeapSingleThread.push (siterNext memoize P) r.2.2 r.2.1
                (.gen cost nodes (P.producer (nodes.getLastD default)))
              let res := bfsLoop memoize P nMax fuel (nIter + 1) p.1 p.2
              ⟨res.yields, res.outcome, res.pops + 1, res.expands + 1,
                res.finalHeap, res.finalMemo⟩

/-- `best_first_search`: seed the frontier with the one-element literal
sequence `[(initial_cost, (initial_node,))]` and an empty memo, then run
the driver loop from iteration 0 with the given fuel. -/
def best_first_search [Inhabited N] (initial_cost : C) (initial_node : N)
    (P : Problem C N) (memoize_bound : Bool) (n_max_iters : Option Nat)
    (fuel : Nat) : BfsResult C N :=
  let p := LazyHeapSingleThread.push (siterNext memoize_bound P) Memo.empty emptyHeap
    (.lit [(initial_cost, [initial_node])])
  bfsLoop memoize_bound P n_max_iters fuel 0 p.1 p.2

end BFS

namespace BFS

variable {C N : Type} [LinearOrder C] [DecidableEq N]

/-- C3: characterisation of one pull on the `_iterate` generator with
memoisation enabled.  If the pull is exhausted, every remaining candidate
was examined and skipped because a recorded cost ≤ its total, and the memo
is unchanged (nothing emitted or recorded for skipped candidates).  If the
pull emits, the consumed candidates split as `skipped ++ (ic, n) :: rest`:
every skipped candidate was dominated by its recorded cost, the emitted
candidate was not (no record, or a record above its total), its total
`cost_add cost ic` is recorded as the node's new best, and
`(total, path ++ [n])` is emitted with exactly the unexamined candidates
remaining — each pruning decision is made lazily, exactly once per
candidate, at the moment it would otherwise be pushed. -/
theorem claim_C3 (P : Problem C N) (c : C) (nodes : List N)
    (memo : Memo C N) (cands : List (C × N)) :
    (∀ rest' memo'',
      iterateGen true P c nodes memo cands = (none, rest', memo'') →
        rest' = [] ∧ memo'' = memo ∧
        ∀ p ∈ cands, ∃ b, memo p.2 = some b ∧ b ≤ P.costAdd c p.1) ∧
    (∀ t out rest' memo'',
      iterateGen true P c nodes memo cands = (some (t, out), rest', memo'') →
        ∃ skipped ic n, cands = skipped ++ (ic, n) :: rest' ∧
          (∀ p ∈ skipped, ∃ b, memo p.2 = some b ∧ b ≤ P.costAdd c p.1) ∧
          (∀ b, memo n = some b → P.costAdd c ic < b) ∧
          t = P.costAdd c ic ∧ out = nodes ++ [n] ∧
          memo'' = memo.insert n t) := by
  induction cands generalizing memo with
  | nil =>
      constructor
      · intro rest' memo'' h
        simp only [iterateGen, Prod.mk.injEq] at h
        exact ⟨h.2.1.symm, h.2.2.symm, fun p hp => absurd hp (List.not_mem_nil p)⟩
      · intro t out rest' memo'' h
        simp only [iterateGen, Prod.mk.injEq] at h
        cases h.1
  | cons p cands ih =>
      obtain ⟨ic, n⟩ := p
      rcases hm : memo n with - | b
      · have hstep : iterateGen true P c nodes memo ((ic, n) :: cands) =
            (some (P.costAdd c ic, nodes ++ [n]), cands, memo.insert n (P.costAdd c ic)) := by
          simp only [iterateGen, hm, if_true]
        constructor
        · intro rest' memo'' h
          rw [hstep] at h
          simp only [Prod.mk.injEq] at h
          cases h.1
        · intro t out rest' memo'' h
          rw [hstep] at h
          simp only [Prod.mk.injEq, Option.some.injEq] at h
          obtain ⟨⟨rfl, rfl⟩, rfl, rfl⟩ := h
          exact ⟨[], ic, n, rfl, fun p hp => absurd hp (List.not_mem_nil p),
            (fun b hb => by rw [hm] at hb; cases hb), rfl, rfl, rfl⟩
      · rcases hle : decide (b ≤ P.costAdd c ic) with - | -
        · have hlt : P.costAdd c ic < b := by
            have := of_decide_eq_false hle
            exact lt_of_not_le fun hcon => this hcon
          have hstep : iterateGen true P c nodes memo ((ic, n) :: cands) =
              (some (P.costAdd c ic, nodes ++ [n]), cands, memo.insert n (P.costAdd c ic)) := by
            simp only [iterateGen, hm, if_true, if_neg (not_le_of_lt hlt)]
          constructor
          · intro rest' memo'' h
            rw [hstep] at h
            simp only [Prod.mk.injEq] at h
            cases h.1
          · intro t out rest' memo'' h
            rw [hstep] at h
            simp only [Prod.mk.injEq, Option.some.injEq] at h
            obtain ⟨⟨rfl, rfl⟩, rfl, rfl⟩ := h
            exact ⟨[], ic, n, rfl, fun p hp => absurd hp (List.not_mem_nil p),
              (fun b' hb' => by rw [hm] at hb'; cases hb'; exact hlt), rfl, rfl, rfl⟩
        · have hble : b ≤ P.costAdd c ic := of_decide_eq_true hle
          have hstep : iterateGen true P c nodes memo ((ic, n) :: cands) =
              iterateGen true P c nodes memo cands := by
            simp only [iterateGen, hm, if_true, if_pos hble]
          constructor
          · intro rest' memo'' h
            rw [hstep] at h
            obtain ⟨h1, h2, h3⟩ := (ih memo).1 rest' memo'' h
            refine ⟨h1, h2, fun p hp => ?_⟩
            rcases List.mem_cons.mp hp with rfl | hp
            · exact ⟨b, hm, hble⟩
            · exact h3 p hp
          · intro t out rest' memo'' h
            rw [hstep] at h
            obtain ⟨skipped, ic', n', heq, hsk, hnp, ht, hout, hmm⟩ :=
              (ih memo).2 t out rest' memo'' h
            refine ⟨(ic, n) :: skipped, ic', n', by rw [heq, List.cons_append],
              fun p hp => ?_, hnp, ht, hout, hmm⟩
            rcases List.mem_cons.mp hp with rfl | hp
            · exact ⟨b, hm, hble⟩
            · exact hsk p hp

end BFS

namespace BFS

/-- Witness instance for C1: two ascending sequences pushed, then pops. -/
theorem claim_C1_witness :
    List.Chain' (· ≤ ·) (someCosts
      (runOps (listNext (C := Nat) (A := Nat))
        ([[(5, 0)], [(3, 1)]].map .push ++ List.replicate 3 .pop) (emptyHeap, ())).2) ∧
    (∀ e r, popMin (runOps (listNext (C := Nat) (A := Nat))
        [.push [(5, 0)], .push [(3, 1)], .pop] (emptyHeap, ())).1.1.heap = some (e, r) →
      ∀ x ∈ r, e.cost < x.cost ∨ (e.cost = x.cost ∧ e.idx < x.idx)) ∧
    (runOps (listNext (C := Nat) (A := Nat))
      [.push [(5, 0)], .push [(3, 1)], .pop] (emptyHeap, ())).1.1.heap.Pairwise
      (fun e f => e.origin ≠ f.origin) :=
  claim_C1 [[(5, 0)], [(3, 1)]]
    (by intro it hit; fin_cases hit <;> simp) 3
    [.push [(5, 0)], .push [(3, 1)], .pop]

/-- Concrete problem instance for the C3 witness. -/
def exProblemC3 : Problem Nat Nat :=
  { producer := fun _ => [], isSolution := fun _ => false, costAdd := Nat.add }

/-- Concrete memo for the C3 witness: node 7 recorded at cost 3. -/
def exMemoC3 : Memo Nat Nat := Memo.empty.insert 7 3

/-- Witness for C3 at a concrete pull: candidate `(5, 7)` is dominated
(recorded 3 ≤ total 5) and skipped; candidate `(2, 9)` is unrecorded and
emitted with its total recorded. -/
theorem claim_C3_witness :
    ∃ skipped ic n, ([(5, 7), (2, 9)] : List (Nat × Nat)) = skipped ++ (ic, n) :: [] ∧
      (∀ p ∈ skipped, ∃ b, exMemoC3 p.2 = some b ∧ b ≤ exProblemC3.costAdd 0 p.1) ∧
      (∀ b, exMemoC3 n = some b → exProblemC3.costAdd 0 ic < b) ∧
      (2 : Nat) = exProblemC3.costAdd 0 ic ∧ ([0, 9] : List Nat) = [0] ++ [n] ∧
      exMemoC3.insert 9 2 = exMemoC3.insert n 2 :=
  (claim_C3 exProblemC3 0 [0] exMemoC3 [(5, 7), (2, 9)]).2 2 [0, 9] []
    (exMemoC3.insert 9 2) rfl

end BFS

namespace BFS

variable {C N : Type} [LinearOrder C] [DecidableEq N] [Inhabited N]
variable {P : Problem C N} {memoize : Bool} {nMax : Option Nat}

theorem capReached_some {k nIter : Nat} :
    capReached (some k) nIter = true ↔ k ≤ nIter := by
  simp [capReached]

theorem bfsLoop_zero (nIter : Nat) (s : LazyHeapSingleThread C (List N) (SIter C N))
    (memo : Memo C N) :
    bfsLoop memoize P nMax 0 nIter s memo = ⟨[], .fuelOut, 0, 0, s, memo⟩ := rfl

theorem bfsLoop_succ_capped {nIter : Nat} (h : capReached nMax nIter = true)
    (fuel : Nat) (s : LazyHeapSingleThread C (List N) (SIter C N)) (memo : Memo C N) :
    bfsLoop memoize P nMax (fuel + 1) nIter s memo =
      ⟨[], .capped, 1, 0,
        (LazyHeapSingleThread.pop (siterNext memoize P) memo s).2.1,
        (LazyHeapSingleThread.pop (siterNext memoize P) memo s).2.2⟩ := by
  simp only [bfsLoop, h, if_true]

theorem bfsLoop_succ_exhausted {nIter : Nat} (hcap : capReached nMax nIter = false)
    {s : LazyHeapSingleThread C (List N) (SIter C N)} {memo : Memo C N}
    (hr : (LazyHeapSingleThread.pop (siterNext memoize P) memo s).1 = none)
    (fuel : Nat) :
    bfsLoop memoize P nMax (fuel + 1) nIter s memo =
      ⟨[], .exhausted, 1, 0,
        (LazyHeapSingleThread.pop (siterNext memoize P) memo s).2.1,
        (LazyHeapSingleThread.pop (siterNext memoize P) memo s).2.2⟩ := by
  simp only [bfsLoop, hcap, hr, Bool.false_eq_true, if_false]

theorem bfsLoop_succ_yield {nIter : Nat} (hcap : capReached nMax nIter = false)
    {s : LazyHeapSingleThread C (List N) (SIter C N)} {memo : Memo C N}
    {cost : C} {nodes : List N}
    (hr : (LazyHeapSingleThread.pop (siterNext memoize P) memo s).1 = some (cost, nodes))
    (hsol : P.isSolution (nodes.getLastD default) = true) (fuel : Nat) :
    bfsLoop memoize P nMax (fuel + 1) nIter s memo =
      (let res := bfsLoop memoize P nMax fuel (nIter + 1)
        (LazyHeapSingleThread.pop (siterNext memoize P) memo s).2.1
        (LazyHeapSingleThread.pop (siterNext memoize P) memo s).2.2
       ⟨(cost, nIter, nodes) :: res.yields, res.outcome, res.pops + 1,
         res.expands, res.finalHeap, res.finalMemo⟩) := by
  simp only [bfsLoop, hcap, hr, hsol, Bool.false_eq_true, if_false, if_true]

theorem bfsLoop_succ_expand {nIter : Nat} (hcap : capReached nMax nIter = false)
    {s : LazyHeapSingleThread C (List N) (SIter C N)} {memo : Memo C N}
    {cost : C} {nodes : List N}
    (hr : (LazyHeapSingleThread.pop (siterNext memoize P) memo s).1 = some (cost, nodes))
    (hsol : P.isSolution (nodes.getLastD default) = false) (fuel : Nat) :
    bfsLoop memoize P nMax (fuel + 1) nIter s memo =
      (let p := LazyHeapSingleThread.push (siterNext memoize P)
        (LazyHeapSingleThread.pop (siterNext memoize P) memo s).2.2
        (LazyHeapSingleThread.pop (siterNext memoize P) memo s).2.1
        (.gen cost nodes (P.producer (nodes.getLastD default)))
       let res := bfsLoop memoize P nMax fuel (nIter + 1) p.1 p.2
       ⟨res.yields, res.outcome, res.pops + 1, res.expands + 1,
         res.finalHeap, res.finalMemo⟩) := by
  simp only [bfsLoop, hcap, hr, hsol, Bool.false_eq_true, if_false]

theorem bfsLoop_cap_bound (memoize : Bool) (P : Problem C N) (k : Nat) :
    ∀ (fuel nIter : Nat) (s : LazyHeapSingleThread C (List N) (SIter C N))
      (memo : Memo C N), nIter ≤ k →
      (bfsLoop memoize P (some k) fuel nIter s memo).pops + nIter ≤ k + 1 ∧
      (bfsLoop memoize P (some k) fuel nIter s memo).expands + nIter ≤ k ∧
      (k + 1 ≤ fuel + nIter →
        (bfsLoop memoize P (some k) fuel nIter s memo).outcome ≠ .fuelOut) := by
  intro fuel
  induction fuel with
  | zero =>
      intro nIter s memo hle
      rw [bfsLoop_zero]
      dsimp only
      exact ⟨by omega, by omega, fun hf => absurd hf (by omega)⟩
  | succ fuel ih =>
      intro nIter s memo hle
      cases hcap : capReached (some k) nIter with
      | true =>
          rw [bfsLoop_succ_capped hcap]
          dsimp only
          have hk : k ≤ nIter := capReached_some.mp hcap
          exact ⟨by omega, by omega, fun _ => by decide⟩
      | false =>
          have hlt : nIter < k := by
            have : ¬ k ≤ nIter := fun hcon =>
              by rw [capReached_some.mpr hcon] at hcap; cases hcap
            omega
          rcases hr : (LazyHeapSingleThread.pop (siterNext memoize P) memo s).1
            with - | ⟨cost, nodes⟩
          · rw [bfsLoop_succ_exhausted hcap hr]
            dsimp only
            exact ⟨by omega, by omega, fun _ => by decide⟩
          · cases hsol : P.isSolution (nodes.getLastD default) with
            | true =>
                rw [bfsLoop_succ_yield hcap hr hsol]
                dsimp only
                have h := ih (nIter + 1)
                  (LazyHeapSingleThread.pop (siterNext memoize P) memo s).2.1
                  (LazyHeapSingleThread.pop (siterNext memoize P) memo s).2.2
                  (by omega)
                exact ⟨by have := h.1; omega, by have := h.2.1; omega,
                  fun hf => h.2.2 (by omega)⟩
            | false =>
                rw [bfsLoop_succ_expand hcap hr hsol]
                dsimp only
                have h := ih (nIter + 1)
                  (LazyHeapSingleThread.push (siterNext memoize P)
                    (LazyHeapSingleThread.pop (siterNext memoize P) memo s).2.2
                    (LazyHeapSingleThread.pop (siterNext memoize P) memo s).2.1
                    (.gen cost nodes (P.producer (nodes.getLastD default)))).1
                  (LazyHeapSingleThread.push (siterNext memoize P)
                    (LazyHeapSingleThread.pop (siterNext memoize P) memo s).2.2
                    (LazyHeapSingleThread.pop (siterNext memoize P) memo s).2.1
                    (.gen cost nodes (P.producer (nodes.getLastD default)))).2
                  (by omega)
                exact ⟨by have := h.1; omega, by have := h.2.1; omega,
                  fun hf => h.2.2 (by omega)⟩

/-- Trivial problem (no neighbours, no solutions), used as concrete input. -/
def exProblemTrivial : Problem Nat Nat :=
  { producer := fun _ => [], isSolution := fun _ => false, costAdd := Nat.add }

/-- C5 counterexample: with `n_max_iters = 0` the claim demands
termination with no pop at all ("terminates without popping again" once 0
iterations have occurred, checking the cap before popping), but the code
pops first and tests the cap afterwards, so one pop occurs. -/
theorem claim_C5_counterexample :
    (best_first_search 0 0 exProblemTrivial true (some 0) 5).pops = 1 ∧
    ¬ (best_first_search 0 0 exProblemTrivial true (some 0) 5).pops ≤ 0 := by
  constructor <;> decide

/-- C5 amended: the driver checks the cap right after the pop at the start
of each iteration, so with `n_max_iters = some k` it performs at most
k + 1 pops (one extra pop whose result is discarded when the cap is hit)
and at most k expansions, and with fuel at least k + 1 it terminates by
the cap or by exhaustion, never by running out of fuel — even if
solutions exist beyond the bound. -/
theorem claim_C5 (P : Problem C N) (c0 : C) (n0 : N) (memoize : Bool) (k fuel : Nat) :
    (best_first_search c0 n0 P memoize (some k) fuel).pops ≤ k + 1 ∧
    (best_first_search c0 n0 P memoize (some k) fuel).expands ≤ k ∧
    (k + 1 ≤ fuel →
      (best_first_search c0 n0 P memoize (some k) fuel).outcome ≠ .fuelOut) := by
  unfold best_first_search
  dsimp only
  have h := bfsLoop_cap_bound memoize P k fuel 0
    (LazyHeapSingleThread.push (siterNext memoize P) Memo.empty emptyHeap
      (.lit [(c0, [n0])])).1
    (LazyHeapSingleThread.push (siterNext memoize P) Memo.empty emptyHeap
      (.lit [(c0, [n0])])).2
    (Nat.zero_le k)
  exact ⟨by omega, by omega, fun hf => h.2.2 (by omega)⟩

end BFS

namespace BFS

variable {C N : Type} [LinearOrder C] [DecidableEq N] [Inhabited N]

/-- States reachable from the initial node through producer edges. -/
inductive Reaches (P : Problem C N) (n0 : N) : N → Prop
  | refl : Reaches P n0 n0
  | step {m n : N} {c : C} : Reaches P n0 m → (c, n) ∈ P.producer m → Reaches P n0 n

/-- Shape of one pull on the `_iterate` generator, memoised or not: an
exhausted pull leaves no candidates; an emitting pull consumed a prefix,
emitted the total and extended path of some candidate, and left exactly
the unexamined suffix. -/
theorem iterateGen_shape {memoize : Bool} {P : Problem C N} {c : C} {nodes : List N} :
    ∀ {memo : Memo C N} {cands : List (C × N)} {res rest' memo'},
      iterateGen memoize P c nodes memo cands = (res, rest', memo') →
      (res = none → rest' = []) ∧
      (∀ t out, res = some (t, out) →
        ∃ pre ic n, cands = pre ++ (ic, n) :: rest' ∧ t = P.costAdd c ic ∧
          out = nodes ++ [n]) := by
  intro memo cands
  induction cands generalizing memo with
  | nil =>
      intro res rest' memo' h
      simp only [iterateGen, Prod.mk.injEq] at h
      obtain ⟨rfl, rfl, rfl⟩ := h
      exact ⟨fun _ => rfl, fun t out h => by cases h⟩
  | cons p cands ih =>
      obtain ⟨ic, n⟩ := p
      intro res rest' memo' h
      by_cases hmz : memoize
      · subst hmz
        rcases hm : memo n with - | b
        · rw [show iterateGen true P c nodes memo ((ic, n) :: cands) =
              (some (P.costAdd c ic, nodes ++ [n]), cands, memo.insert n (P.costAdd c ic))
              from by simp only [iterateGen, hm, if_true]] at h
          simp only [Prod.mk.injEq] at h
          obtain ⟨rfl, rfl, rfl⟩ := h
          refine ⟨(fun hcon => nomatch hcon), fun t out hto => ?_⟩
          simp only [Option.some.injEq, Prod.mk.injEq] at hto
          obtain ⟨rfl, rfl⟩ := hto
          exact ⟨[], ic, n, rfl, rfl, rfl⟩
        · by_cases hble : b ≤ P.costAdd c ic
          · rw [show iterateGen true P c nodes memo ((ic, n) :: cands) =
                iterateGen true P c nodes memo cands
                from by simp only [iterateGen, hm, if_true, if_pos hble]] at h
            obtain ⟨h1, h2⟩ := ih h
            refine ⟨h1, fun t out hto => ?_⟩
            obtain ⟨pre, ic', n', heq, ht, hout⟩ := h2 t out hto
            exact ⟨(ic, n) :: pre, ic', n', by rw [heq, List.cons_append], ht, hout⟩
          · rw [show iterateGen true P c nodes memo ((ic, n) :: cands) =
                (some (P.costAdd c ic, nodes ++ [n]), cands, memo.insert n (P.costAdd c ic))
                from by simp only [iterateGen, hm, if_true, if_neg hble]] at h
            simp only [Prod.mk.injEq] at h
            obtain ⟨rfl, rfl, rfl⟩ := h
            refine ⟨(fun hcon => nomatch hcon), fun t out hto => ?_⟩
            simp only [Option.some.injEq, Prod.mk.injEq] at hto
            obtain ⟨rfl, rfl⟩ := hto
            exact ⟨[], ic, n, rfl, rfl, rfl⟩
      · have hmz' : memoize = false := by
          cases memoize
          · rfl
          · exact absurd rfl hmz
        subst hmz'
        rw [show iterateGen false P c nodes memo ((ic, n) :: cands) =
            (some (P.costAdd c ic, nodes ++ [n]), cands, memo)
            from by simp only [iterateGen, if_false, Bool.false_eq_true]] at h
        simp only [Prod.mk.injEq] at h
        obtain ⟨rfl, rfl, rfl⟩ := h
        refine ⟨(fun hcon => nomatch hcon), fun t out hto => ?_⟩
        simp only [Option.some.injEq, Prod.mk.injEq] at hto
        obtain ⟨rfl, rfl⟩ := hto
        exact ⟨[], ic, n, rfl, rfl, rfl⟩

/-- Reachability invariant of a driver iterator. -/
def IterReach (P : Problem C N) (n0 : N) : SIter C N → Prop
  | .lit l => ∀ p ∈ l, Reaches P n0 (p.2.getLastD default)
  | .gen _ _ rest => ∀ p ∈ rest, Reaches P n0 p.2

/-- Reachability invariant of the driver's heap: every entry's path ends
in a reachable state and its iterator only ever emits such paths. -/
def ReachInv (P : Problem C N) (n0 : N)
    (s : LazyHeapSingleThread C (List N) (SIter C N)) : Prop :=
  ∀ e ∈ s.heap, Reaches P n0 (e.item.getLastD default) ∧ IterReach P n0 e.rest

end BFS

namespace BFS

variable {C N : Type} [LinearOrder C] [DecidableEq N] [Inhabited N]

theorem siterNext_reach {P : Problem C N} {n0 : N} {memoize : Bool}
    {memo : Memo C N} {it : SIter C N} (hit : IterReach P n0 it)
    {c' : C} {a' : List N} {it' : SIter C N} {memo' : Memo C N}
    (hn : (siterNext memoize P).next memo it = (some (c', a'), it', memo')) :
    Reaches P n0 (a'.getLastD default) ∧ IterReach P n0 it' := by
  cases it with
  | lit l =>
      cases l with
      | nil => simp [siterNext] at hn
      | cons x xs =>
          simp only [siterNext, Prod.mk.injEq, Option.some.injEq] at hn
          obtain ⟨h1, h2, -⟩ := hn
          subst h2
          have hx : Reaches P n0 (x.2.getLastD default) := hit x (List.mem_cons_self _ _)
          rw [h1] at hx
          exact ⟨hx, fun p hp => hit p (List.mem_cons_of_mem _ hp)⟩
  | gen c nodes rest =>
      rcases hg : iterateGen memoize P c nodes memo rest with ⟨res, rest2, memo2⟩
      have hn' : (res, SIter.gen c nodes rest2, memo2) = (some (c', a'), it', memo') := by
        rw [show (siterNext memoize P).next memo (.gen c nodes rest) =
          (res, SIter.gen c nodes rest2, memo2) from by simp only [siterNext, hg]] at hn
        exact hn
      simp only [Prod.mk.injEq] at hn'
      obtain ⟨h1, h2, -⟩ := hn'
      subst h2
      obtain ⟨pre, ic, n, heq, -, hout⟩ := (iterateGen_shape hg).2 c' a' h1
      have hn1 : (ic, n) ∈ rest := by
        rw [heq]; exact List.mem_append_right _ (List.mem_cons_self _ _)
      constructor
      · rw [hout, List.getLastD_concat]
        exact hit (ic, n) hn1
      · intro p hp
        refine hit p ?_
        rw [heq]
        exact List.mem_append_right _ (List.mem_cons_of_mem _ hp)

theorem reachInv_push {P : Problem C N} {n0 : N} {memoize : Bool}
    {memo : Memo C N} {s : LazyHeapSingleThread C (List N) (SIter C N)}
    {it : SIter C N} (hit : IterReach P n0 it) (hs : ReachInv P n0 s) :
    ReachInv P n0 (LazyHeapSingleThread.push (siterNext memoize P) memo s it).1 := by
  rcases hn : (siterNext memoize P).next memo it with ⟨o, it', memo'⟩
  cases o with
  | none => rw [push_eq_empty hn]; exact hs
  | some p =>
      obtain ⟨c', a'⟩ := p
      rw [push_eq_some hn]
      intro x hx
      have hx' : x ∈ s.heap ++
          [(⟨c', s.index, a', it', s.pushes⟩ : Ent C (List N) (SIter C N))] := hx
      rcases List.mem_append.mp hx' with hx'' | hx''
      · exact hs x hx''
      · simp only [List.mem_singleton] at hx''; subst hx''
        exact siterNext_reach hit hn

theorem reachInv_pop {P : Problem C N} {n0 : N} {memoize : Bool}
    {memo : Memo C N} {s : LazyHeapSingleThread C (List N) (SIter C N)}
    (hs : ReachInv P n0 s) :
    ReachInv P n0 (LazyHeapSingleThread.pop (siterNext memoize P) memo s).2.1 := by
  rcases hp : popMin s.heap with - | ⟨e, r⟩
  · rw [pop_eq_empty hp]; exact hs
  · have hemem : e ∈ s.heap := (popMin_some hp).1
    have hrsub : ∀ x ∈ r, x ∈ s.heap := fun x hx =>
      (popMin_perm hp).symm.subset (List.mem_cons_of_mem _ hx)
    rcases hn : (siterNext memoize P).next memo e.rest with ⟨o, it', memo'⟩
    cases o with
    | none =>
        rw [pop_eq_exhausted hp hn]
        intro x hx
        exact hs x (hrsub x hx)
    | some p =>
        obtain ⟨c', a'⟩ := p
        rw [pop_eq_advance hp hn]
        intro x hx
        have hx' : x ∈ r ++
            [(⟨c', s.index, a', it', e.origin⟩ : Ent C (List N) (SIter C N))] := hx
        rcases List.mem_append.mp hx' with hx'' | hx''
        · exact hs x (hrsub x hx'')
        · simp only [List.mem_singleton] at hx''; subst hx''
          exact siterNext_reach (hs e hemem).2 hn

theorem pop_some_reach {P : Problem C N} {n0 : N} {memoize : Bool}
    {memo : Memo C N} {s : LazyHeapSingleThread C (List N) (SIter C N)}
    (hs : ReachInv P n0 s) {cost : C} {nodes : List N}
    (hr : (LazyHeapSingleThread.pop (siterNext memoize P) memo s).1 = some (cost, nodes)) :
    Reaches P n0 (nodes.getLastD default) := by
  rcases hp : popMin s.heap with - | ⟨e, r⟩
  · rw [pop_eq_empty hp] at hr; cases hr
  · have hemem : e ∈ s.heap := (popMin_some hp).1
    rcases hn : (siterNext memoize P).next memo e.rest with ⟨o, it', memo'⟩
    cases o with
    | none =>
        rw [pop_eq_exhausted hp hn] at hr
        simp only [Option.some.injEq, Prod.mk.injEq] at hr
        obtain ⟨-, rfl⟩ := hr
        exact (hs e hemem).1
    | some p =>
        obtain ⟨c', a'⟩ := p
        rw [pop_eq_advance hp hn] at hr
        simp only [Option.some.injEq, Prod.mk.injEq] at hr
        obtain ⟨-, rfl⟩ := hr
        exact (hs e hemem).1

theorem bfsLoop_no_solution {P : Problem C N} {n0 : N} {memoize : Bool}
    {nMax : Option Nat} (hsol : ∀ n, Reaches P n0 n → P.isSolution n = false) :
    ∀ (fuel nIter : Nat) (s : LazyHeapSingleThread C (List N) (SIter C N))
      (memo : Memo C N), ReachInv P n0 s →
      (bfsLoop memoize P nMax fuel nIter s memo).yields = [] := by
  intro fuel
  induction fuel with
  | zero => intro nIter s memo _; rw [bfsLoop_zero]
  | succ fuel ih =>
      intro nIter s memo hs
      cases hcap : capReached nMax nIter with
      | true => rw [bfsLoop_succ_capped hcap]
      | false =>
          rcases hr : (LazyHeapSingleThread.pop (siterNext memoize P) memo s).1
            with - | ⟨cost, nodes⟩
          · rw [bfsLoop_succ_exhausted hcap hr]
          · have hreach := pop_some_reach hs hr
            have hnos : P.isSolution (nodes.getLastD default) = false := hsol _ hreach
            rw [bfsLoop_succ_expand hcap hr hnos]
            dsimp only
            apply ih
            apply reachInv_push
            · intro p hp
              exact Reaches.step hreach hp
            · exact reachInv_pop hs

/-- C6: when no reachable state satisfies `is_solution` (and producer
sequences are finite, as all modelled sequences are), `best_first_search`
yields nothing for any fuel, iteration cap or memoisation setting: the
absence of a solution is represented solely by the result sequence being
empty.  The embedding is total, so no exception can be modelled or
raised on this path. -/
theorem claim_C6 (P : Problem C N) (c0 : C) (n0 : N) (memoize : Bool)
    (nMax : Option Nat) (fuel : Nat)
    (hsol : ∀ n, Reaches P n0 n → P.isSolution n = false) :
    (best_first_search c0 n0 P memoize nMax fuel).yields = [] := by
  unfold best_first_search
  dsimp only
  apply bfsLoop_no_solution hsol
  apply reachInv_push
  · intro p hp
    simp only [List.mem_singleton] at hp
    subst hp
    exact Reaches.refl
  · intro e he
    cases he

/-- Witness for C6: the trivial no-solution problem yields nothing. -/
theorem claim_C6_witness :
    (best_first_search 0 0 exProblemTrivial true none 5).yields = [] :=
  claim_C6 exProblemTrivial 0 0 true none 5 (fun _ _ => rfl)

end BFS

namespace BFS

variable {C N : Type} [LinearOrder C] [DecidableEq N] [Inhabited N]

/-- Order invariant of a driver iterator at bound `c0`: it only ever emits
costs ≥ `c0`, in non-decreasing order.  For a running `_iterate`
generator the emitted costs are among `cost_add cost ic` for remaining
candidates `ic`. -/
def genIterOK (P : Problem C N) (c0 : C) : SIter C N → Prop
  | .lit l => (∀ p ∈ l, c0 ≤ p.1) ∧ l.Pairwise (fun p q => p.1 ≤ q.1)
  | .gen c _ rest =>
      (∀ p ∈ rest, c0 ≤ P.costAdd c p.1) ∧
      rest.Pairwise (fun p q => P.costAdd c p.1 ≤ P.costAdd c q.1)

theorem siterNext_pres {P : Problem C N} {memoize : Bool} :
    NextPres (siterNext memoize P) (genIterOK P) := by
  intro memo c0 it hit c' a' it' memo' hn
  cases it with
  | lit l =>
      cases l with
      | nil => simp [siterNext] at hn
      | cons x xs =>
          simp only [siterNext, Prod.mk.injEq, Option.some.injEq] at hn
          obtain ⟨h1, h2, -⟩ := hn
          subst h2
          have hle : c0 ≤ x.1 := hit.1 x (List.mem_cons_self _ _)
          rw [h1] at hle
          refine ⟨hle, fun p hp => ?_, (List.pairwise_cons.mp hit.2).2⟩
          have := (List.pairwise_cons.mp hit.2).1 p hp
          rw [h1] at this
          exact this
  | gen c nodes rest =>
      rcases hg : iterateGen memoize P c nodes memo rest with ⟨res, rest2, memo2⟩
      have hn' : (res, SIter.gen c nodes rest2, memo2) = (some (c', a'), it', memo') := by
        rw [show (siterNext memoize P).next memo (.gen c nodes rest) =
          (res, SIter.gen c nodes rest2, memo2) from by simp only [siterNext, hg]] at hn
        exact hn
      simp only [Prod.mk.injEq] at hn'
      obtain ⟨h1, h2, -⟩ := hn'
      subst h2
      obtain ⟨pre, ic, n, heq, ht, -⟩ := (iterateGen_shape hg).2 c' a' h1
      have hmem : (ic, n) ∈ rest := by
        rw [heq]; exact List.mem_append_right _ (List.mem_cons_self _ _)
      have htail : ((ic, n) :: rest2).Pairwise
          (fun p q : C × N => P.costAdd c p.1 ≤ P.costAdd c q.1) := by
        have := hit.2
        rw [heq] at this
        exact (List.pairwise_append.mp this).2.1
      subst ht
      refine ⟨hit.1 (ic, n) hmem, fun p hp => ?_, (List.pairwise_cons.mp htail).2⟩
      exact (List.pairwise_cons.mp htail).1 p hp

/-- Under ascending producers, monotone `cost_add`, and `cost_add` never
decreasing its accumulated argument, a freshly created `_iterate`
generator over the popped `(cost, nodes)` satisfies the order invariant
at bound `cost`. -/
theorem newGen_ok {P : Problem C N}
    (HP : ∀ n, (P.producer n).Pairwise (fun p q => p.1 ≤ q.1))
    (HM : ∀ a b1 b2, b1 ≤ b2 → P.costAdd a b1 ≤ P.costAdd a b2)
    (HA : ∀ a b, a ≤ P.costAdd a b)
    (cost : C) (nodes : List N) (cur : N) :
    genIterOK P cost (.gen cost nodes (P.producer cur)) := by
  refine ⟨fun p _ => HA cost p.1, ?_⟩
  exact (HP cur).imp (fun hpq => HM cost _ _ hpq)

end BFS

namespace BFS

variable {C N : Type} [LinearOrder C] [DecidableEq N] [Inhabited N]

theorem head?_map_mem {α β : Type} {f : α → β} {l : List α} {b : β}
    (hb : b ∈ (l.map f).head?) : ∃ y ∈ l, f y = b := by
  cases l with
  | nil => cases hb
  | cons x xs =>
      simp only [List.map_cons, List.head?_cons, Option.mem_def,
        Option.some.injEq] at hb
      exact ⟨x, List.mem_cons_self _ _, hb⟩

theorem bfsLoop_order {P : Problem C N} {memoize : Bool} {nMax : Option Nat}
    (HP : ∀ n, (P.producer n).Pairwise (fun p q => p.1 ≤ q.1))
    (HM : ∀ a b1 b2, b1 ≤ b2 → P.costAdd a b1 ≤ P.costAdd a b2)
    (HA : ∀ a b, a ≤ P.costAdd a b) :
    ∀ (fuel nIter : Nat) (s : LazyHeapSingleThread C (List N) (SIter C N))
      (memo : Memo C N) (lb : Option C), CostInv (genIterOK P) lb s →
      (∀ y ∈ (bfsLoop memoize P nMax fuel nIter s memo).yields,
        OptLe lb y.1 ∧ nIter ≤ y.2.1) ∧
      List.Chain' (· ≤ ·)
        ((bfsLoop memoize P nMax fuel nIter s memo).yields.map (fun y => y.1)) ∧
      List.Chain' (· < ·)
        ((bfsLoop memoize P nMax fuel nIter s memo).yields.map (fun y => y.2.1)) ∧
      ((bfsLoop memoize P nMax fuel nIter s memo).outcome = .capped →
        ∃ k, nMax = some k) ∧
      ((bfsLoop memoize P nMax fuel nIter s memo).outcome = .exhausted →
        (bfsLoop memoize P nMax fuel nIter s memo).finalHeap.heap = []) := by
  intro fuel
  induction fuel with
  | zero =>
      intro nIter s memo lb _
      rw [bfsLoop_zero]
      dsimp only
      exact ⟨fun y hy => absurd hy (List.not_mem_nil y), List.chain'_nil,
        List.chain'_nil, (fun h => nomatch h), (fun h => nomatch h)⟩
  | succ fuel ih =>
      intro nIter s memo lb hs
      cases hcap : capReached nMax nIter with
      | true =>
          rw [bfsLoop_succ_capped hcap]
          dsimp only
          refine ⟨fun y hy => absurd hy (List.not_mem_nil y), List.chain'_nil,
            List.chain'_nil, fun _ => ?_, (fun h => nomatch h)⟩
          cases nMax with
          | none => cases hcap
          | some k => exact ⟨k, rfl⟩
      | false =>
          rcases hr : (LazyHeapSingleThread.pop (siterNext memoize P) memo s).1
            with - | ⟨cost, nodes⟩
          · rw [bfsLoop_succ_exhausted hcap hr]
            dsimp only
            obtain ⟨heq, hnil⟩ := (pop_costInv siterNext_pres hs).1 hr
            exact ⟨fun y hy => absurd hy (List.not_mem_nil y), List.chain'_nil,
              List.chain'_nil, (fun h => nomatch h), fun _ => by rw [heq]; exact hnil⟩
          · have h2 := (pop_costInv siterNext_pres hs).2 cost nodes hr
            cases hsol : P.isSolution (nodes.getLastD default) with
            | true =>
                rw [bfsLoop_succ_yield hcap hr hsol]
                dsimp only
                have hres := ih (nIter + 1)
                  (LazyHeapSingleThread.pop (siterNext memoize P) memo s).2.1
                  (LazyHeapSingleThread.pop (siterNext memoize P) memo s).2.2
                  (some cost) h2.2
                refine ⟨?_, ?_, ?_, hres.2.2.2.1, hres.2.2.2.2⟩
                · intro y hy
                  rcases List.mem_cons.mp hy with rfl | hy
                  · exact ⟨h2.1, Nat.le_refl _⟩
                  · obtain ⟨hyc, hyn⟩ := hres.1 y hy
                    exact ⟨fun b hb => le_trans (h2.1 b hb) (hyc cost rfl), by omega⟩
                · rw [List.map_cons]
                  refine List.chain'_cons'.mpr ⟨?_, hres.2.1⟩
                  intro b hb
                  obtain ⟨y, hymem, rfl⟩ := head?_map_mem hb
                  exact (hres.1 y hymem).1 cost rfl
                · rw [List.map_cons]
                  refine List.chain'_cons'.mpr ⟨?_, hres.2.2.1⟩
                  intro b hb
                  obtain ⟨y, hymem, rfl⟩ := head?_map_mem hb
                  have h3 := (hres.1 y hymem).2
                  show nIter < y.2.1
                  omega
            | false =>
                rw [bfsLoop_succ_expand hcap hr hsol]
                dsimp only
                have hpush : CostInv (genIterOK P) (some cost)
                    (LazyHeapSingleThread.push (siterNext memoize P)
                      (LazyHeapSingleThread.pop (siterNext memoize P) memo s).2.2
                      (LazyHeapSingleThread.pop (siterNext memoize P) memo s).2.1
                      (.gen cost nodes (P.producer (nodes.getLastD default)))).1 := by
                  refine push_costInv (fun c' a it' st' hn => ?_) h2.2
                  have := siterNext_pres _ cost _
                    (newGen_ok HP HM HA cost nodes (nodes.getLastD default))
                    c' a it' st' hn
                  exact ⟨OptLe.some this.1, this.2⟩
                have hres := ih (nIter + 1)
                  (LazyHeapSingleThread.push (siterNext memoize P)
                    (LazyHeapSingleThread.pop (siterNext memoize P) memo s).2.2
                    (LazyHeapSingleThread.pop (siterNext memoize P) memo s).2.1
                    (.gen cost nodes (P.producer (nodes.getLastD default)))).1
                  (LazyHeapSingleThread.push (siterNext memoize P)
                    (LazyHeapSingleThread.pop (siterNext memoize P) memo s).2.2
                    (LazyHeapSingleThread.pop (siterNext memoize P) memo s).2.1
                    (.gen cost nodes (P.producer (nodes.getLastD default)))).2
                  (some cost) hpush
                refine ⟨?_, hres.2.1, hres.2.2.1, hres.2.2.2.1, hres.2.2.2.2⟩
                intro y hy
                obtain ⟨hyc, hyn⟩ := hres.1 y hy
                exact ⟨fun b hb => le_trans (h2.1 b hb) (hyc cost rfl), by omega⟩

end BFS

namespace BFS

variable {C N : Type} [LinearOrder C] [DecidableEq N] [Inhabited N]

theorem chain_le_head_min {α : Type} {f : α → C} {l : List α}
    (h : List.Chain' (· ≤ ·) (l.map f)) :
    ∀ y0 ∈ l.head?, ∀ y ∈ l, f y0 ≤ f y := by
  cases l with
  | nil => intro y0 hy0; cases hy0
  | cons z zs =>
      intro y0 hy0 y hy
      simp only [List.head?_cons, Option.mem_def, Option.some.injEq] at hy0
      subst hy0
      rcases List.mem_cons.mp hy with rfl | hy
      · exact le_refl _
      · have hp := List.chain'_iff_pairwise.mp h
        rw [List.map_cons] at hp
        exact (List.pairwise_cons.mp hp).1 (f y) (List.mem_map_of_mem f hy)

/-- C2 amended: under ascending producers, `cost_add` monotone in the
incremental argument, and `cost_add` never decreasing the accumulated
cost (non-negative increments, e.g. numeric addition of non-negative
weights), `best_first_search` yields `(cost, iteration, path)` triples in
non-decreasing cost order; the first yielded triple has minimal cost among
all yielded triples; discovery iteration indices strictly increase; a run
ends capped only when `n_max_iters` is set, and a run that ends exhausted
leaves an empty frontier. -/
theorem claim_C2 (P : Problem C N) (c0 : C) (n0 : N) (memoize : Bool)
    (nMax : Option Nat) (fuel : Nat)
    (HP : ∀ n, (P.producer n).Pairwise (fun p q => p.1 ≤ q.1))
    (HM : ∀ a b1 b2, b1 ≤ b2 → P.costAdd a b1 ≤ P.costAdd a b2)
    (HA : ∀ a b, a ≤ P.costAdd a b) :
    List.Chain' (· ≤ ·)
      ((best_first_search c0 n0 P memoize nMax fuel).yields.map (fun y => y.1)) ∧
    (∀ y0 ∈ (best_first_search c0 n0 P memoize nMax fuel).yields.head?,
      ∀ y ∈ (best_first_search c0 n0 P memoize nMax fuel).yields, y0.1 ≤ y.1) ∧
    List.Chain' (· < ·)
      ((best_first_search c0 n0 P memoize nMax fuel).yields.map (fun y => y.2.1)) ∧
    ((best_first_search c0 n0 P memoize nMax fuel).outcome = .capped →
      ∃ k, nMax = some k) ∧
    ((best_first_search c0 n0 P memoize nMax fuel).outcome = .exhausted →
      (best_first_search c0 n0 P memoize nMax fuel).finalHeap.heap = []) := by
  have hinit : CostInv (genIterOK P) none
      (LazyHeapSingleThread.push (siterNext memoize P) Memo.empty emptyHeap
        (.lit [(c0, [n0])])).1 := by
    refine push_costInv (fun c' a it' st' hn => ?_)
      (fun e he => absurd he (List.not_mem_nil e))
    have heq : (some ((c0 : C), [n0]), SIter.lit ([] : List (C × List N)),
        (Memo.empty : Memo C N)) = (some (c', a), it', st') := by
      rw [← hn]; rfl
    simp only [Prod.mk.injEq, Option.some.injEq] at heq
    obtain ⟨⟨h1, -⟩, h2, -⟩ := heq
    subst h1; subst h2
    exact ⟨OptLe.none, fun p hp => absurd hp (List.not_mem_nil p), List.Pairwise.nil⟩
  have h := @bfsLoop_order C N _ _ _ P memoize nMax HP HM HA fuel 0
    (LazyHeapSingleThread.push (siterNext memoize P) Memo.empty emptyHeap
      (.lit [(c0, [n0])])).1
    (LazyHeapSingleThread.push (siterNext memoize P) Memo.empty emptyHeap
      (.lit [(c0, [n0])])).2
    none hinit
  unfold best_first_search
  dsimp only
  exact ⟨h.2.1, chain_le_head_min h.2.1, h.2.2.1, h.2.2.2.1, h.2.2.2.2⟩

/-- Problem instance for the C2 counterexample: producers ascending, cost
addition monotone (integer addition), but an incremental cost is
negative, so a cheaper solution is discovered after a dearer one. -/
def exProblemC2 : Problem Int Nat :=
  { producer := fun n =>
      if n = 0 then [(5, 1), (6, 2)] else if n = 2 then [(-11, 3)] else []
    isSolution := fun n => n == 1 || n == 3
    costAdd := (· + ·) }

/-- C2 counterexample: with ascending producers and monotone integer
`cost_add` — the claim's stated hypotheses — the yielded costs are
`[5, -5]`, which is not non-decreasing, and the first yield is not the
lowest-cost solution found. -/
theorem claim_C2_counterexample :
    ((best_first_search (0 : Int) 0 exProblemC2 true none 8).yields.map
      (fun y => y.1)) = [5, -5] ∧
    ¬ List.Chain' (· ≤ ·)
      ((best_first_search (0 : Int) 0 exProblemC2 true none 8).yields.map
        (fun y => y.1)) := by
  have hmap : ((best_first_search (0 : Int) 0 exProblemC2 true none 8).yields.map
      (fun y => y.1)) = [5, -5] := by decide
  refine ⟨hmap, fun h => ?_⟩
  rw [hmap] at h
  have h5 : (5 : Int) ≤ -5 := (List.chain'_cons.mp h).1
  omega

/-- Problem instance for the C2 witness. -/
def exProblemC2w : Problem Nat Nat :=
  { producer := fun n => if n = 0 then [(1, 1), (2, 2)] else []
    isSolution := fun n => n == 1 || n == 2
    costAdd := Nat.add }

/-- Witness for the amended C2 at a concrete instance. -/
theorem claim_C2_witness :
    List.Chain' (· ≤ ·)
      ((best_first_search 0 0 exProblemC2w true none 8).yields.map (fun y => y.1)) ∧
    (∀ y0 ∈ (best_first_search 0 0 exProblemC2w true none 8).yields.head?,
      ∀ y ∈ (best_first_search 0 0 exProblemC2w true none 8).yields, y0.1 ≤ y.1) ∧
    List.Chain' (· < ·)
      ((best_first_search 0 0 exProblemC2w true none 8).yields.map (fun y => y.2.1)) ∧
    ((best_first_search 0 0 exProblemC2w true none 8).outcome = .capped →
      ∃ k, (none : Option Nat) = some k) ∧
    ((best_first_search 0 0 exProblemC2w true none 8).outcome = .exhausted →
      (best_first_search 0 0 exProblemC2w true none 8).finalHeap.heap = []) :=
  claim_C2 exProblemC2w 0 0 true none 8
    (by
      intro n
      by_cases h : n = 0 <;> simp [exProblemC2w, h])
    (fun a b1 b2 h => Nat.add_le_add_left h a)
    (fun a b => Nat.le_add_right a b)

end BFS

namespace BFS

variable {C N : Type} [LinearOrder C] [DecidableEq N]

/-- Iterator handed to the concurrent heap: the pairs not yet produced
and whether, once they are exhausted, advancing raises an error instead
of `StopIteration`. -/
structure RIter (C N : Type) where
  items : List (C × N)
  raises : Bool
deriving DecidableEq

/-- Python exceptions the concurrent pop can surface, plus a model-only
fuel sentinel (never reached when the pop loop gets enough fuel). -/
inductive PyErr where
  | producerFailure
  | popFromEmptyDeque
  | modelFuelOut
deriving DecidableEq

/-- A handle in `self.futures`: an advancement task not yet executed by a
worker (`pending`, holding the iterator to advance), completed normally
(`doneOk`), or completed with the iterator's exception captured
(`doneErr`). -/
inductive Fut (C N : Type) where
  | pending (origin : Nat) (it : RIter C N)
  | doneOk
  | doneErr
deriving DecidableEq

/-- Whether `fut.done()` is true. -/
def Fut.isDone : Fut C N → Bool
  | .pending _ _ => false
  | _ => true

/-- State of `LazyHeapMultithread`: heap entries, insertion index, ghost
push counter, the `futures` deque, and `detached` — ghost storage for
tasks whose handles `pop`'s waiting loop dropped from the deque without
waiting on them (their worker still runs them eventually). -/
structure LazyHeapMultithread (C N : Type) where
  heap : List (Ent C N (RIter C N)) := []
  index : Nat := 0
  pushes : Nat := 0
  futures : List (Fut C N) := []
  detached : List (Nat × RIter C N) := []
deriving DecidableEq

/-- Body of `_internal_push` as executed by a worker thread: advance the
iterator once; on an item, `heappush` `(cost, self.index, node, rest)`
under the lock; on exhaustion do nothing (`StopIteration` absorbed); on
any other error the exception is captured in the returned future state. -/
def internalPushRun [LinearOrder C] (s : LazyHeapMultithread C N)
    (origin : Nat) (it : RIter C N) : LazyHeapMultithread C N × Fut C N :=
  match it.items with
  | [] => (s, if it.raises then .doneErr else .doneOk)
  | (c, n) :: rest =>
      let e : Ent C N (RIter C N) := ⟨c, s.index, n, ⟨rest, it.raises⟩, origin⟩
      ({ s with heap := s.heap ++ [e], index := s.index + 1 }, .doneOk)

/-- Scheduler step: a worker executes the pending future at deque
position `i` (no effect when `i` is out of range or the future is done). -/
def runFut [LinearOrder C] (s : LazyHeapMultithread C N) (i : Nat) :
    LazyHeapMultithread C N :=
  match s.futures[i]? with
  | some (.pending origin it) =>
      let r := internalPushRun s origin it
      { r.1 with futures := r.1.futures.set i r.2 }
  | _ => s

/-- `LazyHeapMultithread.push`: submit an advancement task for the
iterator and return immediately. -/
def LazyHeapMultithread.push (s : LazyHeapMultithread C N) (it : RIter C N) :
    LazyHeapMultithread C N :=
  { s with futures := s.futures ++ [.pending s.pushes it], pushes := s.pushes + 1 }

/-- `Future.result()`: block until the task has run — in the model,
forcing a pending task executes it now — then return, or re-raise the
captured exception. -/
def forceFut [LinearOrder C] (s : LazyHeapMultithread C N) :
    Fut C N → Except PyErr (LazyHeapMultithread C N)
  | .pending origin it =>
      match internalPushRun s origin it with
      | (_, .doneErr) => .error .producerFailure
      | (s', _) => .ok s'
  | .doneOk => .ok s
  | .doneErr => .error .producerFailure

/-- The inner waiting loop of `LazyHeapMultithread.pop`:
`while self.futures: fut = self.futures.popleft(); if fut.done():
continue; _ = self.futures.popleft().result(); break`.  A done future is
discarded without calling `result()` — its captured exception, if any,
is silently lost.  A pending future is dropped from the deque (the ghost
`detached` list keeps its still-running task) and the loop then waits on
the NEXT future; `popleft()` on the already empty deque raises
`IndexError`. -/
def waitScan [LinearOrder C] (s : LazyHeapMultithread C N) :
    List (Fut C N) → Except PyErr (LazyHeapMultithread C N)
  | [] => .ok { s with futures := [] }
  | f :: fs =>
      match f with
      | .pending origin it =>
          match fs with
          | [] => .error .popFromEmptyDeque
          | g :: gs =>
              match forceFut { s with detached := s.detached ++ [(origin, it)] } g with
              | .error e => .error e
              | .ok s' => .ok { s' with futures := gs }
      | _ => waitScan s fs

/-- The outer `while True` loop of `LazyHeapMultithread.pop`, fuelled.
If the heap is non-empty, `heappop` the least entry, submit an
advancement task for its iterator and return the popped pair at once
(re-insertion happens asynchronously).  If the heap is empty and no
futures remain, the frontier is exhausted: return `None`.  Otherwise run
the waiting loop over the deque and retry. -/
def mtPopLoop [LinearOrder C] [DecidableEq N] :
    Nat → LazyHeapMultithread C N →
    Except PyErr (Option (C × N) × LazyHeapMultithread C N)
  | 0, _ => .error .modelFuelOut
  | fuel + 1, s =>
      match popMin s.heap with
      | some (e, r) =>
          .ok (some (e.cost, e.item),
            { s with heap := r, futures := s.futures ++ [.pending e.origin e.rest] })
      | none =>
          if s.futures = [] then .ok (none, s)
          else
            match waitScan s s.futures with
            | .error e => .error e
            | .ok s' => mtPopLoop fuel s'

/-- `LazyHeapMultithread.pop`.  The fuel `futures.length + 2` always
suffices: each pass of the waiting loop strictly shrinks the deque. -/
def LazyHeapMultithread.pop [LinearOrder C] [DecidableEq N]
    (s : LazyHeapMultithread C N) :
    Except PyErr (Option (C × N) × LazyHeapMultithread C N) :=
  mtPopLoop (s.futures.length + 2) s

end BFS

namespace BFS

/-- Scenario for C7: one pushed sequence whose first advancement raises;
the worker completes — future done with the exception captured — before
`pop` scans the deque; the heap is otherwise empty. -/
def exMTErr : LazyHeapMultithread Nat Nat :=
  runFut (LazyHeapMultithread.push {} ⟨[], true⟩) 0

/-- C7: the claim (and the spec's stated policy) requires the producer's
error to propagate to the caller of the `pop` that would have surfaced
that entry; but the waiting loop discards completed futures without
calling `result()` (`if fut.done(): continue`), so the captured exception
is silently dropped and `pop` returns `None` as if the frontier were
cleanly exhausted. -/
theorem claim_C7 :
    exMTErr.futures = [Fut.doneErr] ∧
    LazyHeapMultithread.pop exMTErr = .ok (none, ⟨[], 0, 1, [], []⟩) :=
  ⟨rfl, rfl⟩

/-- Scenario for C8: heap empty, exactly one pending advancement task
(push one sequence, pop before the worker starts). -/
def exMTPend : LazyHeapMultithread Nat Nat :=
  LazyHeapMultithread.push {} ⟨[(7, 3)], false⟩

/-- C8: the claim (and the spec) requires `pop` on an empty heap with
pending tasks to block on the oldest pending task's completion and retry;
the code instead pops the pending future, sees it is not done, and calls
`popleft()` again on the now-empty deque — raising `IndexError` instead
of waiting. -/
theorem claim_C8 :
    exMTPend.heap = [] ∧
    exMTPend.futures = [Fut.pending 0 ⟨[(7, 3)], false⟩] ∧
    LazyHeapMultithread.pop exMTPend = .error .popFromEmptyDeque :=
  ⟨rfl, rfl, rfl⟩

/-- Scenario for C9: sequence `[(5, B)]` is pushed and its task lands;
sequence `[(3, A)]` is pushed but its advancement task has not run when
the next `pop` arrives. -/
def exMTa : LazyHeapMultithread Nat Nat :=
  runFut (LazyHeapMultithread.push {} ⟨[(5, 0)], false⟩) 0

/-- Second pushed sequence still pending. -/
def exMTb : LazyHeapMultithread Nat Nat := exMTa.push ⟨[(3, 1)], false⟩

/-- State after the first concurrent pop in the C9 scenario. -/
def exMTc : LazyHeapMultithread Nat Nat :=
  match LazyHeapMultithread.pop exMTb with
  | .ok r => r.2
  | .error _ => {}

/-- C9 counterexample: with the same two pushed sequences, the concurrent
frontier under a legal schedule (the second advancement task lands only
after the next pop) returns costs 5 then 3 — decreasing, and different
from the sequential variant's 3 then 5. -/
theorem claim_C9_counterexample :
    ((LazyHeapMultithread.pop exMTb).toOption.map (fun r => r.1) =
      some (some (5, 0))) ∧
    ((LazyHeapMultithread.pop (runFut exMTc 1)).toOption.map (fun r => r.1) =
      some (some (3, 1))) ∧
    ((runOps (listNext (C := Nat) (A := Nat))
        [.push [(5, 0)], .push [(3, 1)], .pop, .pop] (emptyHeap, ())).2 =
      [some (3, 1), some (5, 0)]) ∧
    ¬ (5 : Nat) ≤ 3 :=
  ⟨rfl, rfl, rfl, by decide⟩

end BFS

namespace BFS

variable {C N : Type} [LinearOrder C] [DecidableEq N]

/-- Wrap a materialised sequential-heap entry for the concurrent heap
(the iterator raises no error). -/
def entWrap (e : Ent C N (List (C × N))) : Ent C N (RIter C N) :=
  ⟨e.cost, e.idx, e.item, ⟨e.rest, false⟩, e.origin⟩

/-- Quiescent push on the concurrent heap: the submitted advancement task
is executed before the next frontier operation. -/
def mtPushQ [LinearOrder C] (s : LazyHeapMultithread C N) (it : RIter C N) :
    LazyHeapMultithread C N :=
  runFut (s.push it) ((s.push it).futures.length - 1)

/-- Quiescent run of operations on the concurrent heap: after every push
and every pop, the just-submitted advancement task completes before the
next operation begins. -/
def runOpsMT [LinearOrder C] [DecidableEq N] :
    List (HeapOp (List (C × N))) → LazyHeapMultithread C N →
    Except PyErr (LazyHeapMultithread C N × List (Option (C × N)))
  | [], s => .ok (s, [])
  | .push it :: ops, s => runOpsMT ops (mtPushQ s ⟨it, false⟩)
  | .pop :: ops, s =>
      match LazyHeapMultithread.pop s with
      | .error e => .error e
      | .ok (res, s') =>
          match runOpsMT ops (runFut s' (s'.futures.length - 1)) with
          | .error e => .error e
          | .ok (sf, outs) => .ok (sf, res :: outs)

/-- Correspondence between a sequential heap state and a quiescent
concurrent one: same entries (wrapped), same counters, and every future
completed without error. -/
def MTMatches (s : LazyHeapSingleThread C N (List (C × N)))
    (m : LazyHeapMultithread C N) : Prop :=
  m.heap = s.heap.map entWrap ∧ m.index = s.index ∧ m.pushes = s.pushes ∧
  ∀ f ∈ m.futures, f = Fut.doneOk

theorem entWrap_inj : Function.Injective (entWrap (C := C) (N := N)) := by
  intro a b h
  cases a; cases b
  simp only [entWrap, Ent.mk.injEq, RIter.mk.injEq] at h
  obtain ⟨h1, h2, h3, ⟨h4, -⟩, h5⟩ := h
  simp only [Ent.mk.injEq]
  exact ⟨h1, h2, h3, h4, h5⟩

theorem argmin_entWrap (l : List (Ent C N (List (C × N)))) :
    (l.map entWrap).argmin Ent.key = (l.argmin Ent.key).map entWrap := by
  induction l with
  | nil => rfl
  | cons a l ih =>
      rw [List.map_cons, List.argmin_cons, List.argmin_cons, ih]
      cases h : l.argmin Ent.key with
      | none => rfl
      | some m =>
          show (if (entWrap m).key < (entWrap a).key
              then some (entWrap m) else some (entWrap a)) =
            ((if m.key < a.key then some m else some a).map entWrap)
          have hk : (entWrap m).key = m.key := rfl
          have hk2 : (entWrap a).key = a.key := rfl
          rw [hk, hk2, apply_ite (Option.map entWrap)]
          rfl

theorem popMin_entWrap (l : List (Ent C N (List (C × N)))) :
    popMin (l.map entWrap) =
      (popMin l).map (fun p => (entWrap p.1, p.2.map entWrap)) := by
  unfold popMin
  rw [argmin_entWrap]
  cases h : l.argmin Ent.key with
  | none => rfl
  | some e =>
      have he : (l.map entWrap).erase (entWrap e) = (l.erase e).map entWrap :=
        (List.map_erase entWrap_inj l).symm
      simp only [Option.map_some', he]

theorem waitScan_done [LinearOrder C] {s : LazyHeapMultithread C N} :
    ∀ {l : List (Fut C N)}, (∀ f ∈ l, f = Fut.doneOk) →
      waitScan s l = .ok { s with futures := [] } := by
  intro l
  induction l with
  | nil => intro _; rfl
  | cons f fs ih =>
      intro h
      have hf : f = Fut.doneOk := h f (List.mem_cons_self _ _)
      subst hf
      exact ih (fun g hg => h g (List.mem_cons_of_mem _ hg))

theorem mtPopLoop_none_empty {m : LazyHeapMultithread C N}
    (hp : popMin m.heap = none) (hf : m.futures = []) (fuel : Nat) :
    mtPopLoop (fuel + 1) m = .ok (none, m) := by
  simp only [mtPopLoop, hp, hf, if_pos]

theorem mtPopLoop_none_wait {m : LazyHeapMultithread C N}
    (hp : popMin m.heap = none) (hf : m.futures ≠ [])
    {m' : LazyHeapMultithread C N} (hw : waitScan m m.futures = .ok m') (fuel : Nat) :
    mtPopLoop (fuel + 1) m = mtPopLoop fuel m' := by
  simp only [mtPopLoop, hp, if_neg hf, hw]

theorem mtPopLoop_some {m : LazyHeapMultithread C N} {e : Ent C N (RIter C N)}
    {r : List (Ent C N (RIter C N))} (hp : popMin m.heap = some (e, r)) (fuel : Nat) :
    mtPopLoop (fuel + 1) m = .ok (some (e.cost, e.item),
      { m with heap := r, futures := m.futures ++ [.pending e.origin e.rest] }) := by
  simp only [mtPopLoop, hp]

theorem set_concat_length {α : Type} (l : List α) (a b : α) :
    (l ++ [a]).set l.length b = l ++ [b] := by
  induction l with
  | nil => rfl
  | cons x xs ih => simp [List.set_cons_succ, ih]

end BFS

namespace BFS

variable {C N : Type} [LinearOrder C] [DecidableEq N]

theorem runFut_last_pending [LinearOrder C] (m : LazyHeapMultithread C N)
    (o : Nat) (items : List (C × N)) (raises : Bool) {l : List (Fut C N)}
    (hf : m.futures = l ++ [Fut.pending o ⟨items, raises⟩]) :
    runFut m (m.futures.length - 1) =
      (match items with
      | [] => { m with futures := l ++ [if raises then Fut.doneErr else Fut.doneOk] }
      | (c, n) :: rest =>
          { m with heap := m.heap ++ [⟨c, m.index, n, ⟨rest, raises⟩, o⟩],
                   index := m.index + 1, futures := l ++ [Fut.doneOk] }) := by
  have hlen : m.futures.length - 1 = l.length := by rw [hf]; simp
  unfold runFut
  rw [hlen]
  cases items with
  | nil =>
      rw [show m.futures[l.length]? = some (Fut.pending o ⟨[], raises⟩) from by
        rw [hf]; exact List.getElem?_concat_length l _]
      unfold internalPushRun
      dsimp only
      rw [hf, set_concat_length]
  | cons p rest =>
      obtain ⟨c, n⟩ := p
      rw [show m.futures[l.length]? = some (Fut.pending o ⟨(c, n) :: rest, raises⟩) from by
        rw [hf]; exact List.getElem?_concat_length l _]
      unfold internalPushRun
      dsimp only
      rw [hf, set_concat_length]

end BFS

namespace BFS

variable {C N : Type} [LinearOrder C] [DecidableEq N]

theorem mtPop_none_empty {m : LazyHeapMultithread C N}
    (hp : popMin m.heap = none) (hfut : m.futures = []) :
    LazyHeapMultithread.pop m = .ok (none, m) := by
  unfold LazyHeapMultithread.pop
  rw [show m.futures.length + 2 = 0 + 2 from by simp [hfut]]
  exact mtPopLoop_none_empty hp hfut 1

theorem mtPop_none_alldone {m : LazyHeapMultithread C N}
    (hp : popMin m.heap = none) (hfut : m.futures ≠ [])
    (hall : ∀ f ∈ m.futures, f = Fut.doneOk) :
    LazyHeapMultithread.pop m = .ok (none, { m with futures := [] }) := by
  unfold LazyHeapMultithread.pop
  have h2 : mtPopLoop (m.futures.length + 1 + 1) m
      = mtPopLoop (m.futures.length + 1) { m with futures := [] } :=
    mtPopLoop_none_wait hp hfut (waitScan_done hall) _
  refine Eq.trans h2 ?_
  exact mtPopLoop_none_empty (m := { m with futures := [] }) hp rfl m.futures.length

theorem mtPop_some {m : LazyHeapMultithread C N} {e : Ent C N (RIter C N)}
    {r : List (Ent C N (RIter C N))} (hp : popMin m.heap = some (e, r)) :
    LazyHeapMultithread.pop m = .ok (some (e.cost, e.item),
      { m with heap := r, futures := m.futures ++ [.pending e.origin e.rest] }) := by
  unfold LazyHeapMultithread.pop
  exact mtPopLoop_some hp (m.futures.length + 1)

theorem runFut_out_of_range {m : LazyHeapMultithread C N} {i : Nat}
    (h : m.futures[i]? = none) : runFut m i = m := by
  unfold runFut
  rw [h]

theorem stepPush_match {s : LazyHeapSingleThread C N (List (C × N))}
    {m : LazyHeapMultithread C N} (h : MTMatches s m) (it : List (C × N)) :
    MTMatches (LazyHeapSingleThread.push (listNext (C := C) (A := N)) () s it).1
      (mtPushQ m ⟨it, false⟩) := by
  obtain ⟨hh, hi, hp, hf⟩ := h
  cases it with
  | nil =>
      have hfut : (m.push ⟨([] : List (C × N)), false⟩).futures =
          m.futures ++ [Fut.pending m.pushes ⟨[], false⟩] := rfl
      unfold mtPushQ
      rw [runFut_last_pending (m.push ⟨[], false⟩) m.pushes [] false hfut]
      rw [push_eq_empty (rfl : (listNext (C := C) (A := N)).next () [] = (none, [], ()))]
      dsimp only [LazyHeapMultithread.push]
      refine ⟨hh, hi, congrArg (· + 1) hp, ?_⟩
      intro f hfm
      rcases List.mem_append.mp hfm with hfm | hfm
      · exact hf f hfm
      · simp only [List.mem_singleton] at hfm
        simp [hfm]
  | cons x xs =>
      obtain ⟨c, n⟩ := x
      have hfut : (m.push ⟨(c, n) :: xs, false⟩).futures =
          m.futures ++ [Fut.pending m.pushes ⟨(c, n) :: xs, false⟩] := rfl
      unfold mtPushQ
      rw [runFut_last_pending (m.push ⟨(c, n) :: xs, false⟩) m.pushes ((c, n) :: xs)
        false hfut]
      rw [push_eq_some (rfl : (listNext (C := C) (A := N)).next () ((c, n) :: xs) =
        (some (c, n), xs, ()))]
      dsimp only [LazyHeapMultithread.push]
      refine ⟨?_, congrArg (· + 1) hi, congrArg (· + 1) hp, ?_⟩
      · show m.heap ++ [(⟨c, m.index, n, ⟨xs, false⟩, m.pushes⟩ : Ent C N (RIter C N))] =
          (s.heap ++ [(⟨c, s.index, n, xs, s.pushes⟩ : Ent C N (List (C × N)))]).map entWrap
        rw [List.map_append, hh, hi, hp]
        rfl
      · intro f hfm
        rcases List.mem_append.mp hfm with hfm | hfm
        · exact hf f hfm
        · simp only [List.mem_singleton] at hfm
          exact hfm

end BFS

namespace BFS

variable {C N : Type} [LinearOrder C] [DecidableEq N]

theorem stepPop_match {s : LazyHeapSingleThread C N (List (C × N))}
    {m : LazyHeapMultithread C N} (h : MTMatches s m) :
    ∃ m', LazyHeapMultithread.pop m =
        .ok ((LazyHeapSingleThread.pop (listNext (C := C) (A := N)) () s).1, m') ∧
      MTMatches (LazyHeapSingleThread.pop (listNext (C := C) (A := N)) () s).2.1
        (runFut m' (m'.futures.length - 1)) := by
  obtain ⟨hh, hi, hp, hf⟩ := h
  rcases hpm : popMin s.heap with - | ⟨e, r⟩
  · have hsheap : s.heap = [] := popMin_none.mp hpm
    have hmp : popMin m.heap = none := by
      rw [hh, hsheap]; rfl
    rw [pop_eq_empty hpm]
    rcases hfm : m.futures with - | ⟨f, fs⟩
    · refine ⟨m, ?_, ?_⟩
      · rw [mtPop_none_empty hmp hfm]
      · rw [runFut_out_of_range (by rw [hfm]; rfl)]
        exact ⟨hh, hi, hp, hf⟩
    · refine ⟨{ m with futures := [] }, ?_, ?_⟩
      · rw [mtPop_none_alldone hmp (by rw [hfm]; exact fun hcon => nomatch hcon) hf]
      · rw [runFut_out_of_range (by rfl)]
        exact ⟨hh, hi, hp, fun g hg => absurd hg (List.not_mem_nil g)⟩
  · have hmp : popMin m.heap = some (entWrap e, r.map entWrap) := by
      rw [hh, popMin_entWrap, hpm]; rfl
    have hm2fut :
        (({ m with heap := r.map entWrap, futures := m.futures ++ [.pending e.origin ⟨e.rest, false⟩] } : LazyHeapMultithread C N)).futures =
        m.futures ++ [Fut.pending e.origin ⟨e.rest, false⟩] := rfl
    rcases herest : e.rest with - | ⟨⟨c2, a2⟩, rest2⟩
    · rw [pop_eq_exhausted hpm
        (show (listNext (C := C) (A := N)).next () e.rest = (none, [], ()) from by
          rw [herest]; rfl)]
      refine ⟨{ m with heap := r.map entWrap, futures := m.futures ++ [.pending e.origin ⟨e.rest, false⟩] }, ?_, ?_⟩
      · exact mtPop_some hmp
      · rw [runFut_last_pending _ e.origin [] false (by rw [hm2fut, herest])]
        dsimp only
        refine ⟨rfl, hi, hp, ?_⟩
        intro g hg
        rcases List.mem_append.mp hg with hg | hg
        · exact hf g hg
        · simp only [List.mem_singleton] at hg
          simp [hg]
    · rw [pop_eq_advance hpm
        (show (listNext (C := C) (A := N)).next () e.rest =
          (some (c2, a2), rest2, ()) from by rw [herest]; rfl)]
      refine ⟨{ m with heap := r.map entWrap, futures := m.futures ++ [.pending e.origin ⟨e.rest, false⟩] }, ?_, ?_⟩
      · exact mtPop_some hmp
      · rw [runFut_last_pending _ e.origin ((c2, a2) :: rest2) false
          (by rw [hm2fut, herest])]
        dsimp only
        refine ⟨?_, congrArg (· + 1) hi, hp, ?_⟩
        · show r.map entWrap ++ [(⟨c2, m.index, a2, ⟨rest2, false⟩, e.origin⟩ :
              Ent C N (RIter C N))] =
            (r ++ [(⟨c2, s.index, a2, rest2, e.origin⟩ :
              Ent C N (List (C × N)))]).map entWrap
          rw [List.map_append, hi]
          rfl
        · intro g hg
          rcases List.mem_append.mp hg with hg | hg
          · exact hf g hg
          · simp only [List.mem_singleton] at hg
            exact hg

theorem runOpsQ_match (ops : List (HeapOp (List (C × N)))) :
    ∀ (s : LazyHeapSingleThread C N (List (C × N))) (m : LazyHeapMultithread C N),
      MTMatches s m →
      ∃ m', runOpsMT ops m =
          .ok (m', (runOps (listNext (C := C) (A := N)) ops (s, ())).2) ∧
        MTMatches (runOps (listNext (C := C) (A := N)) ops (s, ())).1.1 m' := by
  induction ops with
  | nil => intro s m h; exact ⟨m, rfl, h⟩
  | cons op ops ih =>
      intro s m h
      cases op with
      | push it =>
          rw [runOps_push_cons]
          exact ih _ _ (stepPush_match h it)
      | pop =>
          obtain ⟨m', hpop, hmatch⟩ := stepPop_match h
          obtain ⟨mf, hrun, hmf⟩ := ih _ _ hmatch
          refine ⟨mf, ?_, ?_⟩
          · rw [show runOpsMT (.pop :: ops) m = (match LazyHeapMultithread.pop m with
              | .error e => .error e
              | .ok (res, s') =>
                  match runOpsMT ops (runFut s' (s'.futures.length - 1)) with
                  | .error e => .error e
                  | .ok (sf, outs) => .ok (sf, res :: outs)) from rfl]
            rw [hpop]
            dsimp only
            rw [hrun, runOps_pop_cons]
          · rw [runOps_pop_cons]
            exact hmf

/-- C9 corrected: under quiescent schedules — every advancement task
completes before the next frontier operation begins — the concurrent
frontier produces exactly the sequential frontier's results for the same
pushed sequences: the same pop results in the same order, with no
failure.  (By the separate counterexample this does not extend to
arbitrary schedules: a pop that overtakes a pending lower-cost insertion
observes a decreasing, non-sequential order.) -/
theorem claim_C9 (ops : List (HeapOp (List (C × N)))) :
    ∃ m', runOpsMT ops ({} : LazyHeapMultithread C N) =
        .ok (m', (runOps (listNext (C := C) (A := N)) ops (emptyHeap, ())).2) := by
  obtain ⟨m', h1, -⟩ := runOpsQ_match ops emptyHeap {}
    ⟨rfl, rfl, rfl, fun f hf => absurd hf (List.not_mem_nil f)⟩
  exact ⟨m', h1⟩

end BFS

namespace BFS

/-! Effect of `memoize_bound`: concrete instance on which the two settings
disagree.  State 0 carries a free self-loop listed before the unit-cost
edge to the solution state 1; the unmemoised run keeps re-expanding the
self-loop path forever. -/

/-- Zero-cost self-loop instance: the neighbours of state 0 are `(0, 0)`
(a free self-loop, listed first) and `(1, 1)`; state 1 is the only
solution and has no neighbours.  Producer output is ascending and
`cost_add` is plain (monotone, non-negative) addition. -/
def exProblemC4 : Problem Nat Nat :=
  { producer := fun n => if n = 0 then [(0, 0), (1, 1)] else []
    isSolution := fun n => n == 1
    costAdd := Nat.add }

/-- The all-zero path of length `j`. -/
def zeros (j : Nat) : List Nat := List.replicate j 0

/-- Cost-1 entry holding the path `0^i ++ [1]`, created at iteration `i`
of the unmemoised run on `exProblemC4`. -/
def solEntryC4 (i : Nat) : Ent Nat (List Nat) (SIter Nat Nat) :=
  ⟨1, 2 * i, zeros i ++ [1], .gen 0 (zeros i) [], i⟩

/-- Cost-0 entry holding the all-zero path `0^(t+2)`, created by the
expansion at iteration `t` of the unmemoised run on `exProblemC4`. -/
def zeroEntryC4 (t : Nat) : Ent Nat (List Nat) (SIter Nat Nat) :=
  ⟨0, 2 * t + 1, zeros (t + 2), .gen 0 (zeros (t + 1)) [(1, 1)], t + 1⟩

/-- Heap state of the unmemoised run on `exProblemC4` after iterations
`0 .. t`: one unit-cost solution entry per past iteration, plus the
single zero-cost all-zero entry that wins every later pop. -/
def c4State (t : Nat) : LazyHeapSingleThread Nat (List Nat) (SIter Nat Nat) :=
  ⟨(List.range' 1 t).map solEntryC4 ++ [zeroEntryC4 t], 2 * t + 2, t + 2⟩

theorem solEntryC4_succ (t : Nat) :
    solEntryC4 (t + 1) =
      (⟨1, 2 * t + 2, zeros (t + 1) ++ [1], .gen 0 (zeros (t + 1)) [], t + 1⟩ :
        Ent Nat (List Nat) (SIter Nat Nat)) := rfl

theorem range'_one_concat (t : Nat) :
    List.range' 1 (t + 1) = List.range' 1 t ++ [t + 1] := by
  rw [List.range'_concat]
  congr 1
  simp [Nat.add_comm]

theorem solEntryC4_key_not_lt {a b : Nat} (h : b ≤ a) :
    ¬ Ent.key (solEntryC4 a) < Ent.key (solEntryC4 b) := by
  intro hlt
  rcases (Prod.Lex.lt_iff ((solEntryC4 a).cost, (solEntryC4 a).idx)
      ((solEntryC4 b).cost, (solEntryC4 b).idx)).mp hlt with h1 | ⟨-, h2⟩
  · have h1' : (1 : Nat) < 1 := h1
    omega
  · have h2' : 2 * a < 2 * b := h2
    omega

theorem zeroEntryC4_key_lt (t : Nat) :
    Ent.key (zeroEntryC4 t) < Ent.key (solEntryC4 1) :=
  (Prod.Lex.lt_iff ((zeroEntryC4 t).cost, (zeroEntryC4 t).idx)
    ((solEntryC4 1).cost, (solEntryC4 1).idx)).mpr (Or.inl Nat.zero_lt_one)

theorem argmin_solEntriesC4 (t : Nat) :
    ((List.range' 1 t).map solEntryC4).argmin Ent.key =
      if t = 0 then none else some (solEntryC4 1) := by
  induction t with
  | zero => rfl
  | succ t ih =>
      rw [range'_one_concat, List.map_append, List.map_cons, List.map_nil,
        List.argmin_concat, ih]
      cases t with
      | zero => rfl
      | succ u =>
          rw [if_neg (Nat.succ_ne_zero u), if_neg (Nat.succ_ne_zero (u + 1))]
          dsimp only
          rw [if_neg (solEntryC4_key_not_lt (by omega))]

theorem argmin_c4 (t : Nat) :
    (c4State t).heap.argmin Ent.key = some (zeroEntryC4 t) := by
  show ((List.range' 1 t).map solEntryC4 ++ [zeroEntryC4 t]).argmin Ent.key = _
  rw [List.argmin_concat, argmin_solEntriesC4]
  cases t with
  | zero => rfl
  | succ u =>
      rw [if_neg (Nat.succ_ne_zero u)]
      dsimp only
      rw [if_pos (zeroEntryC4_key_lt (u + 1))]

theorem zeroEntryC4_not_mem (t : Nat) :
    zeroEntryC4 t ∉ (List.range' 1 t).map solEntryC4 := by
  intro hmem
  rcases List.mem_map.mp hmem with ⟨i, -, hcon⟩
  have hc : (solEntryC4 i).cost = (zeroEntryC4 t).cost := by rw [hcon]
  have hc' : (1 : Nat) = 0 := hc
  cases hc'

theorem popMin_c4 (t : Nat) :
    popMin (c4State t).heap =
      some (zeroEntryC4 t, (List.range' 1 t).map solEntryC4) := by
  unfold popMin
  rw [argmin_c4]
  show some (zeroEntryC4 t,
    ((List.range' 1 t).map solEntryC4 ++ [zeroEntryC4 t]).erase (zeroEntryC4 t)) = _
  rw [List.erase_append_right _ (zeroEntryC4_not_mem t), List.erase_cons_head,
    List.append_nil]

theorem pop_c4 (t : Nat) (memo : Memo Nat Nat) :
    LazyHeapSingleThread.pop (siterNext false exProblemC4) memo (c4State t) =
      (some (0, zeros (t + 2)),
        ⟨(List.range' 1 (t + 1)).map solEntryC4, 2 * t + 3, t + 2⟩, memo) := by
  have hn : (siterNext false exProblemC4).next memo (zeroEntryC4 t).rest =
      (some (1, zeros (t + 1) ++ [1]), .gen 0 (zeros (t + 1)) [], memo) := rfl
  rw [pop_eq_advance (popMin_c4 t) hn]
  rw [range'_one_concat, List.map_append, List.map_cons, List.map_nil, solEntryC4_succ]
  rfl

theorem push_c4 (t : Nat) (memo : Memo Nat Nat) :
    LazyHeapSingleThread.push (siterNext false exProblemC4) memo
      ⟨(List.range' 1 (t + 1)).map solEntryC4, 2 * t + 3, t + 2⟩
      (.gen 0 (zeros (t + 2)) [(0, 0), (1, 1)]) = (c4State (t + 1), memo) := by
  have hz : zeros (t + 2) ++ [0] = zeros (t + 3) := (List.replicate_succ' (t + 2) 0).symm
  have hn : (siterNext false exProblemC4).next memo
      (.gen 0 (zeros (t + 2)) [(0, 0), (1, 1)]) =
      (some (0, zeros (t + 2) ++ [0]), .gen 0 (zeros (t + 2)) [(1, 1)], memo) := rfl
  rw [hz] at hn
  rw [push_eq_some hn]
  rfl

theorem getLastD_zeros (n d : Nat) : (zeros (n + 1)).getLastD d = 0 := by
  induction n generalizing d with
  | zero => rfl
  | succ m ih =>
      rw [show zeros (m + 1 + 1) = 0 :: zeros (m + 1) from rfl, List.getLastD_cons]
      exact ih 0

theorem c4_false_loop :
    ∀ (fuel t nIter : Nat) (memo : Memo Nat Nat),
      (bfsLoop false exProblemC4 none fuel nIter (c4State t) memo).yields = [] := by
  intro fuel
  induction fuel with
  | zero => intro t nIter memo; rfl
  | succ fuel ih =>
      intro t nIter memo
      have hlast : (zeros (t + 2)).getLastD default = 0 := getLastD_zeros (t + 1) default
      have hr : (LazyHeapSingleThread.pop (siterNext false exProblemC4) memo
          (c4State t)).1 = some (0, zeros (t + 2)) := by rw [pop_c4]
      have hsol : exProblemC4.isSolution ((zeros (t + 2)).getLastD default) = false := by
        rw [hlast]; rfl
      rw [bfsLoop_succ_expand (show capReached none nIter = false from rfl) hr hsol]
      dsimp only
      rw [pop_c4]
      dsimp only
      rw [show exProblemC4.producer ((zeros (t + 2)).getLastD default) = [(0, 0), (1, 1)]
        from by rw [hlast]; rfl]
      rw [push_c4]
      dsimp only
      exact ih (t + 1) (nIter + 1) memo

theorem c4_false_never (fuel : Nat) :
    (best_first_search 0 0 exProblemC4 false none fuel).yields = [] := by
  cases fuel with
  | zero => rfl
  | succ fuel =>
      show (bfsLoop false exProblemC4 none fuel 1 (c4State 0) Memo.empty).yields = []
      exact c4_false_loop fuel 0 1 Memo.empty

end BFS

namespace BFS

/-- C4 counterexample: on `exProblemC4` — ascending producer output,
monotone non-negative `cost_add` — the memoised run yields its first
(and only) solution at cost 1, while the unmemoised run never yields
anything at any fuel: without the dominance pruning the driver
re-expands the free self-loop forever, so no first solution exists whose
cost could match.  Pruning here changes the very existence of the first
yielded solution, not merely never its cost. -/
theorem claim_C4_counterexample :
    (best_first_search 0 0 exProblemC4 true none 4).yields.map (fun y => y.1) = [1] ∧
    ∀ fuel : Nat, (best_first_search 0 0 exProblemC4 false none fuel).yields = [] :=
  ⟨by decide, c4_false_never⟩

end BFS

namespace BFS

variable {C N : Type} [LinearOrder C] [DecidableEq N] [Inhabited N]

/-! Tree-restricted equivalence of the two `memoize_bound` settings. -/

/-- Last state of a path, `nodes[-1]`. -/
def lastN (l : List N) : N := l.getLastD default

theorem lastN_concat (l : List N) (a : N) : lastN (l ++ [a]) = a :=
  List.getLastD_concat _ _ _

/-- Tree-structured reachable state space rooted at `n0`: duplicate-free
successor lists, at most one generating parent over reachable states per
state, and a rank function certifying acyclicity with the root at rank
zero (so in particular no state ever recurs along a produced path). -/
structure TreeProblem (P : Problem C N) (n0 : N) : Prop where
  nodup : ∀ m, ((P.producer m).map Prod.snd).Nodup
  uniq : ∀ {m m' : N} {q q' : C × N}, Reaches P n0 m → Reaches P n0 m' →
    q ∈ P.producer m → q' ∈ P.producer m' → q.2 = q'.2 → m = m'
  acyclic : ∃ rank : N → Nat, rank n0 = 0 ∧
    ∀ m, Reaches P n0 m → ∀ q ∈ P.producer m, rank q.2 = rank m + 1

/-- The generating parent of a running `_iterate` generator, if any. -/
def genParent? : SIter C N → Option N
  | .lit _ => none
  | .gen _ p _ => some (lastN p)

/-- Iterator part of the memoisation-equivalence invariant, relative to
the set `E` of already expanded states: seeding iterators are spent, and
a running generator hangs off an expanded reachable parent and holds only
candidates from that parent's duplicate-free neighbour list. -/
def IterTreeInv (P : Problem C N) (n0 : N) (E : N → Prop) : SIter C N → Prop
  | .lit l => l = []
  | .gen _ p rest => Reaches P n0 (lastN p) ∧ E (lastN p) ∧
      (∀ q ∈ rest, q ∈ P.producer (lastN p)) ∧ (rest.map Prod.snd).Nodup

theorem iterTreeInv_gen {P : Problem C N} {n0 : N} {E : N → Prop} {c : C}
    {p : List N} {rest : List (C × N)} :
    IterTreeInv P n0 E (.gen c p rest) ↔
      Reaches P n0 (lastN p) ∧ E (lastN p) ∧
      (∀ q ∈ rest, q ∈ P.producer (lastN p)) ∧ (rest.map Prod.snd).Nodup := Iff.rfl

theorem iterTreeInv_mono {P : Problem C N} {n0 : N} {E E' : N → Prop}
    (h : ∀ x, E x → E' x) {it : SIter C N} (hi : IterTreeInv P n0 E it) :
    IterTreeInv P n0 E' it := by
  cases it with
  | lit l => exact hi
  | gen c p rest =>
      obtain ⟨h1, h2, h3, h4⟩ := iterTreeInv_gen.mp hi
      exact iterTreeInv_gen.mpr ⟨h1, h _ h2, h3, h4⟩

/-- Invariant tying the memoised run's state, memo and set of expanded
states on a tree problem: entry tips are reachable, unexpanded, pairwise
distinct and recorded in the memo (except the root); running generators
hang off pairwise distinct expanded parents and hold only unrecorded
candidates; every memo record was emitted from an expanded parent; every
expanded state is reachable and recorded (or is the root). -/
structure C4Inv (P : Problem C N) (n0 : N) (E : N → Prop) (M : Memo C N)
    (s : LazyHeapSingleThread C (List N) (SIter C N)) : Prop where
  reach : ∀ e ∈ s.heap, Reaches P n0 (lastN e.item)
  iter : ∀ e ∈ s.heap, IterTreeInv P n0 E e.rest
  fresh : ∀ e ∈ s.heap, ∀ c p rest, e.rest = SIter.gen c p rest →
    ∀ q ∈ rest, M q.2 = none
  lastsDist : s.heap.Pairwise (fun e f => lastN e.item ≠ lastN f.item)
  lastRec : ∀ e ∈ s.heap, lastN e.item = n0 ∨ M (lastN e.item) ≠ none
  parentsDist : s.heap.Pairwise (fun e f => ∀ m m', genParent? e.rest = some m →
    genParent? f.rest = some m' → m ≠ m')
  notExp : ∀ e ∈ s.heap, ¬ E (lastN e.item)
  memoDom : ∀ n c, M n = some c →
    ∃ m q, Reaches P n0 m ∧ q ∈ P.producer m ∧ q.2 = n ∧ E m
  expRec : ∀ m, E m → Reaches P n0 m ∧ (m = n0 ∨ M m ≠ none)

theorem memoInsert_self {M : Memo C N} {n : N} {c : C} : M.insert n c n = some c := by
  simp [Memo.insert]

theorem memoInsert_other {M : Memo C N} {x n : N} (h : x ≠ n) {c : C} :
    M.insert n c x = M x := by
  simp [Memo.insert, h]

theorem TreeProblem.succ_ne_root {P : Problem C N} {n0 : N} (hT : TreeProblem P n0)
    {m : N} (hm : Reaches P n0 m) {q : C × N} (hq : q ∈ P.producer m) : q.2 ≠ n0 := by
  obtain ⟨rank, h0, hstep⟩ := hT.acyclic
  intro hcon
  have hr := hstep m hm q hq
  rw [hcon, h0] at hr
  omega

theorem fresh_producer {P : Problem C N} {n0 : N} (hT : TreeProblem P n0)
    {E : N → Prop} {M₁ : Memo C N}
    (hdom : ∀ n c, M₁ n = some c →
      ∃ m q, Reaches P n0 m ∧ q ∈ P.producer m ∧ q.2 = n ∧ E m)
    {mNew : N} (hreach : Reaches P n0 mNew) (hnE : ¬ E mNew) :
    ∀ q ∈ P.producer mNew, M₁ q.2 = none := by
  intro q hq
  rcases hM : M₁ q.2 with - | c
  · rfl
  · obtain ⟨m', q', hr', hq', hqq, hE'⟩ := hdom _ _ hM
    have heq : mNew = m' := hT.uniq hreach hr' hq hq' hqq.symm
    rw [heq] at hnE
    exact absurd hE' hnE

theorem iterateGen_true_cons (P : Problem C N) (c : C) (nodes : List N) {M : Memo C N}
    {ic : C} {n : N} (hn : M n = none) (rest : List (C × N)) :
    iterateGen true P c nodes M ((ic, n) :: rest) =
      (some (P.costAdd c ic, nodes ++ [n]), rest, M.insert n (P.costAdd c ic)) := by
  simp only [iterateGen, hn, if_true]

theorem iterateGen_false_cons (P : Problem C N) (c : C) (nodes : List N) (M : Memo C N)
    (ic : C) (n : N) (rest : List (C × N)) :
    iterateGen false P c nodes M ((ic, n) :: rest) =
      (some (P.costAdd c ic, nodes ++ [n]), rest, M) := by
  simp only [iterateGen, if_false, Bool.false_eq_true]

end BFS

namespace BFS

variable {C N : Type} [LinearOrder C] [DecidableEq N] [Inhabited N]

/-- One pop on a state satisfying the tree invariant: both memoisation
settings pop the same `(cost, item)` and leave the same heap state (the
memoised pop may additionally record the advanced entry's emission); the
invariant survives, the memo only grows, and the popped tip's neighbour
list, the remaining tips and the remaining generator parents are all
untouched by the memo / distinct from the popped tip. -/
theorem pop_tree_step {P : Problem C N} {n0 : N} (hT : TreeProblem P n0)
    {E : N → Prop} {M : Memo C N} {s : LazyHeapSingleThread C (List N) (SIter C N)}
    (hInv : C4Inv P n0 E M s)
    {e : Ent C (List N) (SIter C N)} {r : List (Ent C (List N) (SIter C N))}
    (hp : popMin s.heap = some (e, r)) (M' : Memo C N) :
    ∃ s₁ M₁,
      LazyHeapSingleThread.pop (siterNext true P) M s = (some (e.cost, e.item), s₁, M₁) ∧
      LazyHeapSingleThread.pop (siterNext false P) M' s = (some (e.cost, e.item), s₁, M') ∧
      C4Inv P n0 E M₁ s₁ ∧
      (∀ x, M x ≠ none → M₁ x ≠ none) ∧
      (∀ q ∈ P.producer (lastN e.item), M₁ q.2 = none) ∧
      (∀ f ∈ s₁.heap, lastN f.item ≠ lastN e.item) ∧
      (∀ f ∈ s₁.heap, ∀ m, genParent? f.rest = some m → m ≠ lastN e.item) := by
  have hperm := popMin_perm hp
  have hemem : e ∈ s.heap := hperm.symm.subset (List.mem_cons_self _ _)
  have hrmem : ∀ x ∈ r, x ∈ s.heap := fun x hx =>
    hperm.symm.subset (List.mem_cons_of_mem _ hx)
  have hlasts : (e :: r).Pairwise (fun a b => lastN a.item ≠ lastN b.item) :=
    (hperm.pairwise_iff (fun hab => Ne.symm hab)).mp hInv.lastsDist
  have hpars : (e :: r).Pairwise (fun a b => ∀ m m', genParent? a.rest = some m →
      genParent? b.rest = some m' → m ≠ m') :=
    (hperm.pairwise_iff (fun hab m m' h1 h2 => Ne.symm (hab m' m h2 h1))).mp
      hInv.parentsDist
  have hEcons := List.pairwise_cons.mp hlasts
  have hPcons := List.pairwise_cons.mp hpars
  have h7 : ∀ f ∈ s.heap, ∀ m, genParent? f.rest = some m → m ≠ lastN e.item := by
    intro f hf m hm hcon
    cases hfr : f.rest with
    | lit l => rw [hfr] at hm; exact Option.noConfusion hm
    | gen cg pg rg =>
        have hif := hInv.iter f hf
        rw [hfr] at hif hm
        have hm' : lastN pg = m := Option.some.inj hm
        have hE : E (lastN pg) := (iterTreeInv_gen.mp hif).2.1
        rw [hm', hcon] at hE
        exact hInv.notExp e hemem hE
  have hInvDrop : C4Inv P n0 E M { s with heap := r } := by
    refine ⟨?_, ?_, ?_, hEcons.2, ?_, hPcons.2, ?_, hInv.memoDom, hInv.expRec⟩
    · exact fun f hf => hInv.reach f (hrmem f hf)
    · exact fun f hf => hInv.iter f (hrmem f hf)
    · exact fun f hf => hInv.fresh f (hrmem f hf)
    · exact fun f hf => hInv.lastRec f (hrmem f hf)
    · exact fun f hf => hInv.notExp f (hrmem f hf)
  cases hrest : e.rest with
  | lit l =>
      have hl : l = [] := by
        have hie := hInv.iter e hemem
        rw [hrest] at hie
        exact hie
      subst hl
      have hnT : (siterNext true P).next M e.rest = (none, .lit [], M) := by
        rw [hrest]; rfl
      have hnF : (siterNext false P).next M' e.rest = (none, .lit [], M') := by
        rw [hrest]; rfl
      refine ⟨{ s with heap := r }, M, pop_eq_exhausted hp hnT, pop_eq_exhausted hp hnF,
        hInvDrop, fun x h => h,
        fresh_producer hT hInv.memoDom (hInv.reach e hemem) (hInv.notExp e hemem),
        fun f hf => Ne.symm (hEcons.1 f hf), fun f hf m hm => h7 f (hrmem f hf) m hm⟩
  | gen cg pg rg =>
      cases rg with
      | nil =>
          have hnT : (siterNext true P).next M e.rest = (none, .gen cg pg [], M) := by
            rw [hrest]; rfl
          have hnF : (siterNext false P).next M' e.rest = (none, .gen cg pg [], M') := by
            rw [hrest]; rfl
          refine ⟨{ s with heap := r }, M, pop_eq_exhausted hp hnT,
            pop_eq_exhausted hp hnF, hInvDrop, fun x h => h,
            fresh_producer hT hInv.memoDom (hInv.reach e hemem) (hInv.notExp e hemem),
            fun f hf => Ne.symm (hEcons.1 f hf), fun f hf m hm => h7 f (hrmem f hf) m hm⟩
      | cons q0 rest' =>
          obtain ⟨ic, n⟩ := q0
          have hfre : ∀ x ∈ (ic, n) :: rest', M x.2 = none :=
            hInv.fresh e hemem cg pg _ hrest
          have hn : M n = none := hfre (ic, n) (List.mem_cons_self _ _)
          have hie := hInv.iter e hemem
          rw [hrest] at hie
          obtain ⟨hrp, hEp, hsub, hnd⟩ := iterTreeInv_gen.mp hie
          have hnd' : (n :: rest'.map Prod.snd).Nodup := by
            rwa [List.map_cons] at hnd
          have hn_nodup : n ∉ rest'.map Prod.snd := (List.nodup_cons.mp hnd').1
          have hmemn : (ic, n) ∈ P.producer (lastN pg) :=
            hsub _ (List.mem_cons_self _ _)
          have hreach_n : Reaches P n0 n := Reaches.step hrp hmemn
          have hne_n0 : n ≠ n0 := hT.succ_ne_root hrp hmemn
          have hgT : iterateGen true P cg pg M ((ic, n) :: rest') =
              (some (P.costAdd cg ic, pg ++ [n]), rest', M.insert n (P.costAdd cg ic)) :=
            iterateGen_true_cons P cg pg hn rest'
          have hnT : (siterNext true P).next M e.rest =
              (some (P.costAdd cg ic, pg ++ [n]), .gen cg pg rest',
                M.insert n (P.costAdd cg ic)) := by
            rw [hrest]
            simp only [siterNext, hgT]
          have hnF : (siterNext false P).next M' e.rest =
              (some (P.costAdd cg ic, pg ++ [n]), .gen cg pg rest', M') := by
            rw [hrest]
            simp only [siterNext, iterateGen_false_cons]
          have hnotn : ∀ f ∈ r, lastN f.item ≠ n := by
            intro f hf hcon
            rcases hInv.lastRec f (hrmem f hf) with h0 | hM
            · rw [hcon] at h0
              exact hne_n0 h0
            · rw [hcon] at hM
              exact hM hn
          have hq_ne_n : ∀ f ∈ r, ∀ c2 p2 r2, f.rest = SIter.gen c2 p2 r2 →
              ∀ q ∈ r2, q.2 ≠ n := by
            intro f hf c2 p2 r2 hfr q hq hcon
            have hif := hInv.iter f (hrmem f hf)
            rw [hfr] at hif
            obtain ⟨hrp2, -, hsub2, -⟩ := iterTreeInv_gen.mp hif
            have hq2 : q ∈ P.producer (lastN p2) := hsub2 q hq
            have hpar_ne : lastN pg ≠ lastN p2 :=
              hPcons.1 f hf (lastN pg) (lastN p2) (by rw [hrest]; rfl) (by rw [hfr]; rfl)
            exact hpar_ne (hT.uniq hrp hrp2 hmemn hq2 (by rw [hcon]))
          have hinsM : ∀ x, M x ≠ none → M.insert n (P.costAdd cg ic) x ≠ none := by
            intro x hx
            by_cases hxe : x = n
            · subst hxe
              rw [memoInsert_self]
              exact fun h => Option.noConfusion h
            · rw [memoInsert_other hxe]
              exact hx
          have hInv₁ : C4Inv P n0 E (M.insert n (P.costAdd cg ic))
              { heap := r ++ [⟨P.costAdd cg ic, s.index, pg ++ [n],
                  .gen cg pg rest', e.origin⟩],
                index := s.index + 1, pushes := s.pushes } := by
            refine ⟨?_, ?_, ?_, ?_, ?_, ?_, ?_, ?_, ?_⟩
            · intro f hf
              rcases List.mem_append.mp hf with hf | hf
              · exact hInv.reach f (hrmem f hf)
              · simp only [List.mem_singleton] at hf
                subst hf
                show Reaches P n0 (lastN (pg ++ [n]))
                rw [lastN_concat]
                exact hreach_n
            · intro f hf
              rcases List.mem_append.mp hf with hf | hf
              · exact hInv.iter f (hrmem f hf)
              · simp only [List.mem_singleton] at hf
                subst hf
                show IterTreeInv P n0 E (.gen cg pg rest')
                exact iterTreeInv_gen.mpr ⟨hrp, hEp,
                  fun q hq => hsub q (List.mem_cons_of_mem _ hq),
                  (List.nodup_cons.mp hnd').2⟩
            · intro f hf c2 p2 r2 hfr q hq
              rcases List.mem_append.mp hf with hf | hf
              · rw [memoInsert_other (hq_ne_n f hf c2 p2 r2 hfr q hq)]
                exact hInv.fresh f (hrmem f hf) c2 p2 r2 hfr q hq
              · simp only [List.mem_singleton] at hf
                subst hf
                have hfr' : SIter.gen cg pg rest' = SIter.gen c2 p2 r2 := hfr
                cases hfr'
                have hne : q.2 ≠ n := by
                  intro hcon
                  exact hn_nodup (by rw [← hcon]; exact List.mem_map_of_mem Prod.snd hq)
                rw [memoInsert_other hne]
                exact hfre q (List.mem_cons_of_mem _ hq)
            · refine List.pairwise_append.mpr ⟨hEcons.2, List.pairwise_singleton _ _, ?_⟩
              intro f hf g hg
              simp only [List.mem_singleton] at hg
              subst hg
              show lastN f.item ≠ lastN (pg ++ [n])
              rw [lastN_concat]
              exact hnotn f hf
            · intro f hf
              rcases List.mem_append.mp hf with hf | hf
              · rcases hInv.lastRec f (hrmem f hf) with h0 | hM
                · exact Or.inl h0
                · exact Or.inr (hinsM _ hM)
              · simp only [List.mem_singleton] at hf
                subst hf
                refine Or.inr ?_
                show M.insert n (P.costAdd cg ic) (lastN (pg ++ [n])) ≠ none
                rw [lastN_concat, memoInsert_self]
                exact fun h => Option.noConfusion h
            · refine List.pairwise_append.mpr ⟨hPcons.2, List.pairwise_singleton _ _, ?_⟩
              intro f hf g hg m m' h1 h2
              simp only [List.mem_singleton] at hg
              subst hg
              have h2' : some (lastN pg) = some m' := h2
              have hm' : lastN pg = m' := Option.some.inj h2'
              have hne := hPcons.1 f hf (lastN pg) m (by rw [hrest]; rfl) h1
              rw [← hm']
              exact Ne.symm hne
            · intro f hf
              rcases List.mem_append.mp hf with hf | hf
              · exact hInv.notExp f (hrmem f hf)
              · simp only [List.mem_singleton] at hf
                subst hf
                show ¬ E (lastN (pg ++ [n]))
                rw [lastN_concat]
                intro hEn
                rcases (hInv.expRec n hEn).2 with h0 | hM
                · exact hne_n0 h0
                · exact hM hn
            · intro x cx hx
              by_cases hxe : x = n
              · rw [hxe]
                exact ⟨lastN pg, (ic, n), hrp, hmemn, rfl, hEp⟩
              · rw [memoInsert_other hxe] at hx
                exact hInv.memoDom x cx hx
            · intro m hm
              obtain ⟨h1, h2⟩ := hInv.expRec m hm
              refine ⟨h1, ?_⟩
              rcases h2 with h0 | hM
              · exact Or.inl h0
              · exact Or.inr (hinsM _ hM)
          refine ⟨_, _, pop_eq_advance hp hnT, pop_eq_advance hp hnF, hInv₁, hinsM,
            fresh_producer hT hInv₁.memoDom (hInv.reach e hemem) (hInv.notExp e hemem),
            ?_, ?_⟩
          · intro f hf
            rcases List.mem_append.mp hf with hf | hf
            · exact Ne.symm (hEcons.1 f hf)
            · simp only [List.mem_singleton] at hf
              subst hf
              show lastN (pg ++ [n]) ≠ lastN e.item
              rw [lastN_concat]
              intro hcon
              rcases hInv.lastRec e hemem with h0 | hM
              · exact hne_n0 (hcon.trans h0)
              · exact hM (by rw [← hcon]; exact hn)
          · intro f hf m hm
            rcases List.mem_append.mp hf with hf | hf
            · exact h7 f (hrmem f hf) m hm
            · simp only [List.mem_singleton] at hf
              subst hf
              have hm' : lastN pg = m :=
                Option.some.inj (show some (lastN pg) = some m from hm)
              rw [← hm']
              intro hcon
              have hE := hEp
              rw [hcon] at hE
              exact hInv.notExp e hemem hE

end BFS

namespace BFS

variable {C N : Type} [LinearOrder C] [DecidableEq N] [Inhabited N]

/-- Expanding a freshly popped, unexpanded tip on a tree problem: pushing
the new `_iterate` generator gives the same heap state for both
memoisation settings (the memoised push may record the first emission,
which the pruning check then finds untouched — it never skips), and the
invariant survives with the tip added to the expanded set. -/
theorem push_tree_step {P : Problem C N} {n0 : N} (hT : TreeProblem P n0)
    {E : N → Prop} {M₁ : Memo C N} {s₁ : LazyHeapSingleThread C (List N) (SIter C N)}
    (hInv : C4Inv P n0 E M₁ s₁) {mNew : N} (cost : C) {nodes : List N}
    (hlast : lastN nodes = mNew) (hreach : Reaches P n0 mNew) (hnE : ¬ E mNew)
    (hrec : mNew = n0 ∨ M₁ mNew ≠ none)
    (hfreshP : ∀ q ∈ P.producer mNew, M₁ q.2 = none)
    (hlastsNe : ∀ f ∈ s₁.heap, lastN f.item ≠ mNew)
    (hparsNe : ∀ f ∈ s₁.heap, ∀ m, genParent? f.rest = some m → m ≠ mNew) :
    ∃ s₂ M₂,
      LazyHeapSingleThread.push (siterNext true P) M₁ s₁
        (.gen cost nodes (P.producer mNew)) = (s₂, M₂) ∧
      (∀ M', LazyHeapSingleThread.push (siterNext false P) M' s₁
        (.gen cost nodes (P.producer mNew)) = (s₂, M')) ∧
      C4Inv P n0 (fun x => E x ∨ x = mNew) M₂ s₂ := by
  have hmono : ∀ x, E x → E x ∨ x = mNew := fun x h => Or.inl h
  rcases hpr : P.producer mNew with - | ⟨q0, prest⟩
  · refine ⟨{ s₁ with pushes := s₁.pushes + 1 }, M₁, ?_, ?_, ?_⟩
    · exact push_eq_empty (show (siterNext true P).next M₁ (.gen cost nodes []) =
        (none, .gen cost nodes [], M₁) from rfl) s₁
    · intro M'
      exact push_eq_empty (show (siterNext false P).next M' (.gen cost nodes []) =
        (none, .gen cost nodes [], M') from rfl) s₁
    · refine ⟨hInv.reach, ?_, hInv.fresh, hInv.lastsDist, hInv.lastRec,
        hInv.parentsDist, ?_, ?_, ?_⟩
      · exact fun f hf => iterTreeInv_mono hmono (hInv.iter f hf)
      · intro f hf hcon
        rcases hcon with hE | hM
        · exact hInv.notExp f hf hE
        · exact hlastsNe f hf hM
      · intro x cx hx
        obtain ⟨m, q, h1, h2, h3, h4⟩ := hInv.memoDom x cx hx
        exact ⟨m, q, h1, h2, h3, Or.inl h4⟩
      · intro m hm
        rcases hm with hE | hM
        · exact hInv.expRec m hE
        · rw [hM]
          exact ⟨hreach, hrec⟩
  · obtain ⟨ic0, n₀⟩ := q0
    have hmem₀ : (ic0, n₀) ∈ P.producer mNew := by
      rw [hpr]
      exact List.mem_cons_self _ _
    have h0 : M₁ n₀ = none := hfreshP (ic0, n₀) hmem₀
    have hreach₀ : Reaches P n0 n₀ := Reaches.step hreach hmem₀
    have hne₀ : n₀ ≠ n0 := hT.succ_ne_root hreach hmem₀
    have hndp : (((ic0, n₀) :: prest).map Prod.snd).Nodup := by
      rw [← hpr]
      exact hT.nodup mNew
    have hndp' : (n₀ :: prest.map Prod.snd).Nodup := by
      rwa [List.map_cons] at hndp
    have hn0_nodup : n₀ ∉ prest.map Prod.snd := (List.nodup_cons.mp hndp').1
    have hsubp : ∀ q ∈ prest, q ∈ P.producer mNew := by
      intro q hq
      rw [hpr]
      exact List.mem_cons_of_mem _ hq
    have hq_ne : ∀ f ∈ s₁.heap, ∀ c2 p2 r2, f.rest = SIter.gen c2 p2 r2 →
        ∀ q ∈ r2, q.2 ≠ n₀ := by
      intro f hf c2 p2 r2 hfr q hq hcon
      have hif := hInv.iter f hf
      rw [hfr] at hif
      obtain ⟨hrp2, -, hsub2, -⟩ := iterTreeInv_gen.mp hif
      have hpar : lastN p2 ≠ mNew := hparsNe f hf (lastN p2) (by rw [hfr]; rfl)
      exact hpar (hT.uniq hrp2 hreach (hsub2 q hq) hmem₀ (by rw [hcon]))
    have hgT : iterateGen true P cost nodes M₁ ((ic0, n₀) :: prest) =
        (some (P.costAdd cost ic0, nodes ++ [n₀]), prest,
          M₁.insert n₀ (P.costAdd cost ic0)) :=
      iterateGen_true_cons P cost nodes h0 prest
    have hnT : (siterNext true P).next M₁ (.gen cost nodes ((ic0, n₀) :: prest)) =
        (some (P.costAdd cost ic0, nodes ++ [n₀]), .gen cost nodes prest,
          M₁.insert n₀ (P.costAdd cost ic0)) := by
      simp only [siterNext, hgT]
    have hinsM : ∀ x, M₁ x ≠ none → M₁.insert n₀ (P.costAdd cost ic0) x ≠ none := by
      intro x hx
      by_cases hxe : x = n₀
      · rw [hxe, memoInsert_self]
        exact fun h => Option.noConfusion h
      · rw [memoInsert_other hxe]
        exact hx
    refine ⟨{ heap := s₁.heap ++ [⟨P.costAdd cost ic0, s₁.index, nodes ++ [n₀],
                .gen cost nodes prest, s₁.pushes⟩],
              index := s₁.index + 1, pushes := s₁.pushes + 1 },
      M₁.insert n₀ (P.costAdd cost ic0), push_eq_some hnT s₁, ?_, ?_⟩
    · intro M'
      have hnF : (siterNext false P).next M' (.gen cost nodes ((ic0, n₀) :: prest)) =
          (some (P.costAdd cost ic0, nodes ++ [n₀]), .gen cost nodes prest, M') := by
        simp only [siterNext, iterateGen_false_cons]
      exact push_eq_some hnF s₁
    · refine ⟨?_, ?_, ?_, ?_, ?_, ?_, ?_, ?_, ?_⟩
      · intro f hf
        rcases List.mem_append.mp hf with hf | hf
        · exact hInv.reach f hf
        · simp only [List.mem_singleton] at hf
          subst hf
          show Reaches P n0 (lastN (nodes ++ [n₀]))
          rw [lastN_concat]
          exact hreach₀
      · intro f hf
        rcases List.mem_append.mp hf with hf | hf
        · exact iterTreeInv_mono hmono (hInv.iter f hf)
        · simp only [List.mem_singleton] at hf
          subst hf
          show IterTreeInv P n0 (fun x => E x ∨ x = mNew) (.gen cost nodes prest)
          refine iterTreeInv_gen.mpr ⟨?_, Or.inr hlast, ?_, (List.nodup_cons.mp hndp').2⟩
          · rw [hlast]
            exact hreach
          · intro q hq
            rw [hlast]
            exact hsubp q hq
      · intro f hf c2 p2 r2 hfr q hq
        rcases List.mem_append.mp hf with hf | hf
        · rw [memoInsert_other (hq_ne f hf c2 p2 r2 hfr q hq)]
          exact hInv.fresh f hf c2 p2 r2 hfr q hq
        · simp only [List.mem_singleton] at hf
          subst hf
          have hfr' : SIter.gen cost nodes prest = SIter.gen c2 p2 r2 := hfr
          cases hfr'
          have hne : q.2 ≠ n₀ := by
            intro hcon
            exact hn0_nodup (by rw [← hcon]; exact List.mem_map_of_mem Prod.snd hq)
          rw [memoInsert_other hne]
          exact hfreshP q (hsubp q hq)
      · refine List.pairwise_append.mpr
          ⟨hInv.lastsDist, List.pairwise_singleton _ _, ?_⟩
        intro f hf g hg
        simp only [List.mem_singleton] at hg
        subst hg
        show lastN f.item ≠ lastN (nodes ++ [n₀])
        rw [lastN_concat]
        intro hcon
        rcases hInv.lastRec f hf with hc0 | hM
        · rw [hcon] at hc0
          exact hne₀ hc0
        · rw [hcon] at hM
          exact hM h0
      · intro f hf
        rcases List.mem_append.mp hf with hf | hf
        · rcases hInv.lastRec f hf with hc0 | hM
          · exact Or.inl hc0
          · exact Or.inr (hinsM _ hM)
        · simp only [List.mem_singleton] at hf
          subst hf
          refine Or.inr ?_
          show M₁.insert n₀ (P.costAdd cost ic0) (lastN (nodes ++ [n₀])) ≠ none
          rw [lastN_concat, memoInsert_self]
          exact fun h => Option.noConfusion h
      · refine List.pairwise_append.mpr
          ⟨hInv.parentsDist, List.pairwise_singleton _ _, ?_⟩
        intro f hf g hg m m' h1 h2
        simp only [List.mem_singleton] at hg
        subst hg
        have h2' : some (lastN nodes) = some m' := h2
        have hm' : lastN nodes = m' := Option.some.inj h2'
        rw [← hm', hlast]
        exact hparsNe f hf m h1
      · intro f hf
        rcases List.mem_append.mp hf with hf | hf
        · intro hcon
          rcases hcon with hE | hM
          · exact hInv.notExp f hf hE
          · exact hlastsNe f hf hM
        · simp only [List.mem_singleton] at hf
          subst hf
          show ¬ (E (lastN (nodes ++ [n₀])) ∨ lastN (nodes ++ [n₀]) = mNew)
          rw [lastN_concat]
          intro hcon
          rcases hcon with hE | hM
          · rcases (hInv.expRec n₀ hE).2 with hc0 | hMM
            · exact hne₀ hc0
            · exact hMM h0
          · rcases hrec with hc0 | hMM
            · rw [hM] at hne₀
              exact hne₀ hc0
            · rw [hM] at h0
              exact hMM h0
      · intro x cx hx
        by_cases hxe : x = n₀
        · rw [hxe]
          exact ⟨mNew, (ic0, n₀), hreach, hmem₀, rfl, Or.inr rfl⟩
        · rw [memoInsert_other hxe] at hx
          obtain ⟨m, q, h1, h2, h3, h4⟩ := hInv.memoDom x cx hx
          exact ⟨m, q, h1, h2, h3, Or.inl h4⟩
      · intro m hm
        rcases hm with hE | hM
        · obtain ⟨h1, h2⟩ := hInv.expRec m hE
          refine ⟨h1, ?_⟩
          rcases h2 with hc0 | hMM
          · exact Or.inl hc0
          · exact Or.inr (hinsM _ hMM)
        · rw [hM]
          refine ⟨hreach, ?_⟩
          rcases hrec with hc0 | hMM
          · exact Or.inl hc0
          · exact Or.inr (hinsM _ hMM)

end BFS

namespace BFS

variable {C N : Type} [LinearOrder C] [DecidableEq N] [Inhabited N]

/-- On a tree problem the two memoisation settings run in lockstep from
any invariant state: same yields, same outcome, same pop and expansion
counts, whatever the unmemoised run's memo holds. -/
theorem bfsLoop_tree_eq {P : Problem C N} {n0 : N} (hT : TreeProblem P n0)
    (nMax : Option Nat) :
    ∀ (fuel nIter : Nat) (s : LazyHeapSingleThread C (List N) (SIter C N))
      (M M' : Memo C N) (E : N → Prop), C4Inv P n0 E M s →
      (bfsLoop true P nMax fuel nIter s M).yields =
        (bfsLoop false P nMax fuel nIter s M').yields ∧
      (bfsLoop true P nMax fuel nIter s M).outcome =
        (bfsLoop false P nMax fuel nIter s M').outcome ∧
      (bfsLoop true P nMax fuel nIter s M).pops =
        (bfsLoop false P nMax fuel nIter s M').pops ∧
      (bfsLoop true P nMax fuel nIter s M).expands =
        (bfsLoop false P nMax fuel nIter s M').expands := by
  intro fuel
  induction fuel with
  | zero =>
      intro nIter s M M' E hInv
      exact ⟨rfl, rfl, rfl, rfl⟩
  | succ fuel ih =>
      intro nIter s M M' E hInv
      cases hcap : capReached nMax nIter with
      | true =>
          rw [bfsLoop_succ_capped hcap, bfsLoop_succ_capped hcap]
          exact ⟨rfl, rfl, rfl, rfl⟩
      | false =>
          rcases hpm : popMin s.heap with - | ⟨e, r⟩
          · have hrT : (LazyHeapSingleThread.pop (siterNext true P) M s).1 = none := by
              rw [pop_eq_empty hpm]
            have hrF : (LazyHeapSingleThread.pop (siterNext false P) M' s).1 = none := by
              rw [pop_eq_empty hpm]
            rw [bfsLoop_succ_exhausted hcap hrT, bfsLoop_succ_exhausted hcap hrF]
            exact ⟨rfl, rfl, rfl, rfl⟩
          · obtain ⟨s₁, M₁, hpT, hpF, hInv₁, hpres, hfreshP, hlastsNe, hparsNe⟩ :=
              pop_tree_step hT hInv hpm M'
            have hemem : e ∈ s.heap := (popMin_some hpm).1
            have hrT : (LazyHeapSingleThread.pop (siterNext true P) M s).1 =
                some (e.cost, e.item) := by rw [hpT]
            have hrF : (LazyHeapSingleThread.pop (siterNext false P) M' s).1 =
                some (e.cost, e.item) := by rw [hpF]
            cases hsol : P.isSolution (e.item.getLastD default) with
            | true =>
                rw [bfsLoop_succ_yield hcap hrT hsol, bfsLoop_succ_yield hcap hrF hsol]
                dsimp only
                rw [hpT, hpF]
                dsimp only
                obtain ⟨h1, h2, h3, h4⟩ := ih (nIter + 1) s₁ M₁ M' E hInv₁
                exact ⟨by rw [h1], h2, by rw [h3], h4⟩
            | false =>
                rw [bfsLoop_succ_expand hcap hrT hsol, bfsLoop_succ_expand hcap hrF hsol]
                dsimp only
                rw [hpT, hpF]
                dsimp only
                have hrec : lastN e.item = n0 ∨ M₁ (lastN e.item) ≠ none := by
                  rcases hInv.lastRec e hemem with h0 | hM
                  · exact Or.inl h0
                  · exact Or.inr (hpres _ hM)
                obtain ⟨s₂, M₂, hshT, hshF, hInv₂⟩ :=
                  push_tree_step hT hInv₁ e.cost (rfl : lastN e.item = lastN e.item)
                    (hInv.reach e hemem) (hInv.notExp e hemem) hrec hfreshP
                    hlastsNe hparsNe
                rw [show e.item.getLastD default = lastN e.item from rfl, hshT, hshF M']
                dsimp only
                obtain ⟨h1, h2, h3, h4⟩ := ih (nIter + 1) s₂ M₂ M' _ hInv₂
                exact ⟨h1, h2, by rw [h3], by rw [h4]⟩

/-- C4 amended: for every problem instance whose reachable state space is
a tree — duplicate-free neighbour lists, at most one generating parent
per state over reachable states, and a rank function certifying
acyclicity with the initial state as root — `best_first_search` with
`memoize_bound = True` and with `memoize_bound = False` produce identical
results outright (the same yields, hence in particular a first solution
of identical cost when one exists, the same outcome, and the same pop and
expansion counts): on trees the dominance pruning never fires.  On
general instances with re-reachable states the settings can genuinely
diverge (see the separate counterexample: the unmemoised run can fail to
yield the solution the memoised run finds). -/
theorem claim_C4 (P : Problem C N) (c0 : C) (n0 : N) (nMax : Option Nat)
    (fuel : Nat) (hT : TreeProblem P n0) :
    (best_first_search c0 n0 P true nMax fuel).yields =
      (best_first_search c0 n0 P false nMax fuel).yields ∧
    (best_first_search c0 n0 P true nMax fuel).outcome =
      (best_first_search c0 n0 P false nMax fuel).outcome ∧
    (best_first_search c0 n0 P true nMax fuel).pops =
      (best_first_search c0 n0 P false nMax fuel).pops ∧
    (best_first_search c0 n0 P true nMax fuel).expands =
      (best_first_search c0 n0 P false nMax fuel).expands := by
  have hs0T : LazyHeapSingleThread.push (siterNext true P) Memo.empty emptyHeap
      (.lit [(c0, [n0])]) =
      (⟨[⟨c0, 0, [n0], .lit [], 0⟩], 1, 1⟩, Memo.empty) := rfl
  have hs0F : LazyHeapSingleThread.push (siterNext false P) Memo.empty emptyHeap
      (.lit [(c0, [n0])]) =
      (⟨[⟨c0, 0, [n0], .lit [], 0⟩], 1, 1⟩, Memo.empty) := rfl
  have hInv0 : C4Inv P n0 (fun _ => False) Memo.empty
      (⟨[⟨c0, 0, [n0], .lit [], 0⟩], 1, 1⟩ :
        LazyHeapSingleThread C (List N) (SIter C N)) := by
    refine ⟨?_, ?_, ?_, ?_, ?_, ?_, ?_, ?_, ?_⟩
    · intro f hf
      simp only [List.mem_singleton] at hf
      subst hf
      show Reaches P n0 (lastN [n0])
      exact Reaches.refl
    · intro f hf
      simp only [List.mem_singleton] at hf
      subst hf
      show ([] : List (C × List N)) = []
      rfl
    · intro f hf c p rest hcon
      simp only [List.mem_singleton] at hf
      subst hf
      have hcon' : SIter.lit ([] : List (C × List N)) = SIter.gen c p rest := hcon
      cases hcon'
    · exact List.pairwise_singleton _ _
    · intro f hf
      simp only [List.mem_singleton] at hf
      subst hf
      exact Or.inl (show lastN [n0] = n0 from rfl)
    · exact List.pairwise_singleton _ _
    · intro f hf h
      exact h
    · intro x cx hx
      have hx' : (none : Option C) = some cx := hx
      cases hx'
    · intro m hm
      exact hm.elim
  obtain ⟨h1, h2, h3, h4⟩ := bfsLoop_tree_eq hT nMax fuel 0
    (⟨[⟨c0, 0, [n0], .lit [], 0⟩], 1, 1⟩) Memo.empty Memo.empty (fun _ => False) hInv0
  unfold best_first_search
  dsimp only
  rw [hs0T, hs0F]
  dsimp only
  exact ⟨h1, h2, h3, h4⟩

/-- Two-leaf tree (root 0, leaves 1 and 2, leaf 1 the solution) used as
the concrete tree-problem input. -/
def exProblemC4w : Problem Nat Nat :=
  { producer := fun n => if n = 0 then [(1, 1), (2, 2)] else []
    isSolution := fun n => n == 1
    costAdd := Nat.add }

theorem exProblemC4w_tree : TreeProblem exProblemC4w 0 := by
  refine ⟨?_, ?_, ?_⟩
  · intro m
    by_cases hm : m = 0
    · rw [show exProblemC4w.producer m = [(1, 1), (2, 2)] from by
        simp [exProblemC4w, hm]]
      decide
    · rw [show exProblemC4w.producer m = [] from by simp [exProblemC4w, hm]]
      exact List.nodup_nil
  · intro m m' q q' hrm hrm' hq hq' hqq
    by_cases h1 : m = 0
    · by_cases h2 : m' = 0
      · rw [h1, h2]
      · rw [show exProblemC4w.producer m' = [] from by simp [exProblemC4w, h2]] at hq'
        exact absurd hq' (List.not_mem_nil q')
    · rw [show exProblemC4w.producer m = [] from by simp [exProblemC4w, h1]] at hq
      exact absurd hq (List.not_mem_nil q)
  · refine ⟨fun n => if n = 0 then 0 else 1, rfl, ?_⟩
    intro m hrm q hq
    by_cases h1 : m = 0
    · subst h1
      have hq' : q ∈ [((1 : Nat), (1 : Nat)), (2, 2)] := hq
      fin_cases hq' <;> rfl
    · rw [show exProblemC4w.producer m = [] from by simp [exProblemC4w, h1]] at hq
      exact absurd hq (List.not_mem_nil q)

/-- Witness for C4 at the two-leaf tree: both settings produce the very
same results. -/
theorem claim_C4_witness :
    (best_first_search 0 0 exProblemC4w true (some 5) 6).yields =
      (best_first_search 0 0 exProblemC4w false (some 5) 6).yields ∧
    (best_first_search 0 0 exProblemC4w true (some 5) 6).outcome =
      (best_first_search 0 0 exProblemC4w false (some 5) 6).outcome ∧
    (best_first_search 0 0 exProblemC4w true (some 5) 6).pops =
      (best_first_search 0 0 exProblemC4w false (some 5) 6).pops ∧
    (best_first_search 0 0 exProblemC4w true (some 5) 6).expands =
      (best_first_search 0 0 exProblemC4w false (some 5) 6).expands :=
  claim_C4 exProblemC4w 0 0 (some 5) 6 exProblemC4w_tree

end BFS
